/-
Verification of the resolution core of the C-PAC pipeline engine
(`CPAC/pipeline/engine.py`): the resource pool and its provenance codec,
the `set_data` insertion semantics, the `get` lookup contract, the
strategy-combination engine `get_strats` (cross product + conflict
pruning), and the fork-tag propagation rule of `NodeBlock.connect_block`.

The Python dictionaries of the source are modelled as ordered association
lists with Python-`dict` update semantics (updating an existing key keeps
its position, a new key is appended; this matches insertion-ordered
CPython dicts).  Python exceptions are modelled with `Except`:
`PyErr.emptyProvenance` is the `IndexError` re-raised by `set_data`
(engine.py:191-194), `PyErr.resourceNotFound` the exception raised by
`get` when no alternative is found (engine.py:270), and `PyErr.pyError`
any other uncaught exception (`KeyError`, `IndexError`, `AttributeError`).
-/
import Mathlib

namespace CpacEngine

/-! ## Ordered dictionaries (CPython `dict` as an association list) -/
/-- `dict` lookup: `d[k]` / `d.get(k)`. -/
def dictGet {κ α : Type} [DecidableEq κ] (d : List (κ × α)) (k : κ) : Option α :=
  match d with
  | [] => none
  | kv :: rest => if kv.1 = k then some kv.2 else dictGet rest k

/-- `dict` assignment `d[k] = v`: replaces in place, or appends a new key. -/
def dictSet {κ α : Type} [DecidableEq κ] (d : List (κ × α)) (k : κ) (v : α) :
    List (κ × α) :=
  match d with
  | [] => [(k, v)]
  | kv :: rest => if kv.1 = k then (k, v) :: rest else kv :: dictSet rest k v

/-- `del d[k]`: removes the (first) binding of `k`. -/
def dictDel {κ α : Type} [DecidableEq κ] (d : List (κ × α)) (k : κ) :
    List (κ × α) :=
  match d with
  | [] => []
  | kv :: rest => if kv.1 = k then rest else kv :: dictDel rest k

/-- `k in d`: membership among the keys. -/
def dictMem {κ α : Type} [DecidableEq κ] (d : List (κ × α)) (k : κ) : Bool :=
  match d with
  | [] => false
  | kv :: rest => if kv.1 = k then true else dictMem rest k

/-! ## Provenance chains (`CpacProvenance` values)

A provenance value in the source is a Python list whose elements are
`"resource:node"` strings or nested such lists (engine.py:157-167,
341-356).  `PEntry` is one element; a chain is a `List PEntry`. -/
/-- One element of a `CpacProvenance` list: a `"{resource}:{node}"` string,
or a nested provenance list when several upstream resources were merged. -/
inductive PEntry where
  | str : String → PEntry
  | list : List PEntry → PEntry

mutual
/-- Boolean equality on provenance entries. -/
def PEntry.beq : PEntry → PEntry → Bool
  | PEntry.str a, PEntry.str b => a == b
  | PEntry.list a, PEntry.list b => PEntry.beqList a b
  | _, _ => false

/-- Boolean equality on provenance lists. -/
def PEntry.beqList : List PEntry → List PEntry → Bool
  | [], [] => true
  | a :: as, b :: bs => PEntry.beq a b && PEntry.beqList as bs
  | _, _ => false
end

mutual
/-- Structural decision procedure for equality of provenance entries. -/
def PEntry.decEq : (a b : PEntry) → Decidable (a = b)
  | PEntry.str a, PEntry.str b =>
    match String.decEq a b with
    | isTrue h => isTrue (by rw [h])
    | isFalse h => isFalse (fun hc => h (by injection hc))
  | PEntry.str _, PEntry.list _ => isFalse (fun hc => PEntry.noConfusion hc)
  | PEntry.list _, PEntry.str _ => isFalse (fun hc => PEntry.noConfusion hc)
  | PEntry.list a, PEntry.list b =>
    match PEntry.decEqList a b with
    | isTrue h => isTrue (by rw [h])
    | isFalse h => isFalse (fun hc => h (by injection hc))

/-- Structural decision procedure for equality of provenance lists. -/
def PEntry.decEqList : (a b : List PEntry) → Decidable (a = b)
  | [], [] => isTrue rfl
  | [], _ :: _ => isFalse (fun hc => List.noConfusion hc)
  | _ :: _, [] => isFalse (fun hc => List.noConfusion hc)
  | a :: as, b :: bs =>
    match PEntry.decEq a b with
    | isFalse h1 => isFalse (fun hc => h1 (by injection hc))
    | isTrue h1 =>
      match PEntry.decEqList as bs with
      | isTrue h2 => isTrue (by rw [h1, h2])
      | isFalse h2 => isFalse (fun hc => h2 (by injection hc))
end

instance : DecidableEq PEntry := PEntry.decEq

/-- The single-quote character (code 39). -/
def sq : Char := Char.ofNat 39

/-- The backslash character (code 92). -/
def bsl : Char := Char.ofNat 92

mutual
/-- Characters of the CPython `str()` of one provenance entry.  `repr` of a
string built from plain characters (see `goodChar`) is the text wrapped in
single quotes; `str` of a list is `[` + comma-space-separated `repr`s + `]`.
`generate_prov_string` (engine.py:341-350) keys the pool with this text. -/
def encE : PEntry → List Char
  | PEntry.str s => sq :: (s.data ++ [sq])
  | PEntry.list l => '[' :: (encSep l ++ [']'])

/-- The element list of a Python list literal, separated by `", "`. -/
def encSep : List PEntry → List Char
  | [] => []
  | [e] => encE e
  | e :: f :: r => encE e ++ (',' :: ' ' :: encSep (f :: r))
end

/-- The lineage key of a chain: CPython `str(prov)` (engine.py:350). -/
def pyStr (prov : List PEntry) : String := String.mk (encE (PEntry.list prov))

/-- A character CPython `repr` prints verbatim inside a string literal:
printable ASCII that is neither a quote nor a backslash. -/
def goodChar (c : Char) : Bool :=
  32 ≤ c.toNat && c.toNat < 127 && c ≠ sq && c ≠ bsl

mutual
/-- Well-formed entry: every string consists of plain characters, so that
CPython `repr` is exactly single-quote wrapping. -/
def wfE : PEntry → Bool
  | PEntry.str s => s.data.all goodChar
  | PEntry.list l => wfL l

/-- Well-formed chain: all entries well-formed. -/
def wfL : List PEntry → Bool
  | [] => true
  | e :: r => wfE e && wfL r
end

/-- Reads the body of a single-quoted string literal up to the closing
quote. -/
def takeStr : List Char → Option (List Char × List Char)
  | [] => none
  | c :: rest =>
    if c = sq then some ([], rest)
    else
      match takeStr rest with
      | some (s, r) => some (c :: s, r)
      | none => none

mutual
/-- Fuel-indexed recursive-descent parser for the literals produced by
CPython `str()` on provenance values; models what `ast.literal_eval`
(engine.py:356) computes on this grammar. -/
def parseE : Nat → List Char → Option (PEntry × List Char)
  | 0, _ => none
  | Nat.succ fuel, cs =>
    match cs with
    | [] => none
    | c :: rest =>
      if c = sq then
        match takeStr rest with
        | some (s, r) => some (PEntry.str (String.mk s), r)
        | none => none
      else if c = '[' then
        match rest with
        | [] => none
        | c2 :: r2 =>
          if c2 = ']' then some (PEntry.list [], r2)
          else
            match parseElems fuel rest with
            | some (l, r) => some (PEntry.list l, r)
            | none => none
      else none

/-- Parses `elem (", " elem)* "]"` after the opening bracket of a
non-empty list literal. -/
def parseElems : Nat → List Char → Option (List PEntry × List Char)
  | 0, _ => none
  | Nat.succ fuel, cs =>
    match parseE fuel cs with
    | none => none
    | some (e, r) =>
      match r with
      | [] => none
      | c :: r2 =>
        if c = ']' then some ([e], r2)
        else if c = ',' then
          match r2 with
          | [] => none
          | c2 :: r3 =>
            if c2 = ' ' then
              match parseElems fuel r3 with
              | some (l, r4) => some (e :: l, r4)
              | none => none
            else none
        else none
end

mutual
/-- Fuel sufficient for `parseE` on the encoding of `e`. -/
def fuelE : PEntry → Nat
  | PEntry.str _ => 1
  | PEntry.list l => fuelL l + 1

/-- Fuel sufficient for `parseElems` on the encoding of `l`. -/
def fuelL : List PEntry → Nat
  | [] => 1
  | [e] => fuelE e + 1
  | e :: f :: r => max (fuelE e) (fuelL (f :: r)) + 1
end

/-! ## Python string primitives

Character-level models of the CPython string methods the engine uses
(`split`, `in`, `replace`).  They are structural recursions so that
concrete runs reduce inside the kernel. -/
/-- Python `s.split(sep)` for a one-character separator: splits at every
occurrence, keeping empty fields (so `''.split(':') == ['']`). -/
def splitChar (sep : Char) : List Char → List (List Char)
  | [] => [[]]
  | c :: rest =>
    if c = sep then [] :: splitChar sep rest
    else
      match splitChar sep rest with
      | [] => [[c]]
      | g :: gs => (c :: g) :: gs

/-- Python `s.split(sep)[0]`: the text before the first separator. -/
def firstSplit (sep : Char) (s : String) : String :=
  String.mk ((splitChar sep s.data).headD [])

/-- Python `pat in s` (substring containment) for a non-empty pattern. -/
def hasSub (pat : List Char) : List Char → Bool
  | [] => pat.isEmpty
  | c :: rest => pat.isPrefixOf (c :: rest) || hasSub pat rest

/-- Worker for `replaceSub`: the counter skips the tail of a match that
was already consumed. -/
def replAux (pat repl : List Char) : List Char → Nat → List Char
  | [], _ => []
  | _ :: rest, Nat.succ k => replAux pat repl rest k
  | c :: rest, 0 =>
    if !pat.isEmpty && pat.isPrefixOf (c :: rest) then
      repl ++ replAux pat repl rest (pat.length - 1)
    else c :: replAux pat repl rest 0

/-- Python `s.replace(pat, repl)` for a non-empty pattern: replaces every
non-overlapping occurrence, left to right. -/
def replaceSub (pat repl s : List Char) : List Char := replAux pat repl s 0

/-! ## Provenance codec -/
mutual
/-- Modelled from the spec: `last_step(chain)` — "the most recent
production step; for a nested chain, recurses into the last
(possibly-list) element" (spec §4.1).  The helper `get_last_prov_entry`
is imported from `CPAC/utils/utils.py`, which is not part of this source
tree; `none` models the `IndexError` a trailing empty list raises. -/
def get_last_prov_entry : PEntry → Option String
  | PEntry.str s => some s
  | PEntry.list l => glpeList l

/-- `get_last_prov_entry` on the elements of a list entry: recurse into
the last element (`prov[-1]`); empty means `IndexError`. -/
def glpeList : List PEntry → Option String
  | [] => none
  | [e] => get_last_prov_entry e
  | _ :: f :: r => glpeList (f :: r)
end

/-- `ResourcePool.generate_prov_string` (engine.py:341-350): the resource
named by the chain's last step, paired with CPython `str(prov)` as the
lineage key.  `none` models the `IndexError` raised inside
`get_last_prov_entry` on an empty (sub-)chain. -/
def generate_prov_string (prov : List PEntry) : Option (String × String) :=
  match get_last_prov_entry (PEntry.list prov) with
  | none => none
  | some last_entry => some (firstSplit ':' last_entry, pyStr prov)

/-- `ResourcePool.generate_prov_list` (engine.py:352-356):
`ast.literal_eval` of a lineage key, modelled on the list-literal grammar
the encoder produces (`s.length` fuel suffices, by `fuelE_le_length`). -/
def generate_prov_list (s : String) : Option (List PEntry) :=
  match parseE s.length s.data with
  | some (PEntry.list l, []) => some l
  | _ => none

/-! ## Error model -/
/-- Python exceptions of the engine: the `IndexError` re-raised by
`set_data` (engine.py:191-194), the "none of the listed resources"
exception of `get` (engine.py:270), and any other uncaught exception
(`KeyError`, `IndexError`, `AttributeError`, …). -/
inductive PyErr where
  | emptyProvenance
  | resourceNotFound
  | pyError
deriving DecidableEq, Repr

instance {ε α : Type} [DecidableEq ε] [DecidableEq α] :
    DecidableEq (Except ε α) := fun x y =>
  match x, y with
  | Except.ok a, Except.ok b =>
      if h : a = b then Decidable.isTrue (by rw [h])
      else Decidable.isFalse (by simp [h])
  | Except.ok _, Except.error _ => Decidable.isFalse (by simp)
  | Except.error _, Except.ok _ => Decidable.isFalse (by simp)
  | Except.error a, Except.error b =>
      if h : a = b then Decidable.isTrue (by rw [h])
      else Decidable.isFalse (by simp [h])

/-! ## `get_resource_from_prov` -/
/-- `ResourcePool.get_resource_from_prov` (engine.py:157-167) applied to a
provenance list: the resource name of the chain's last entry.  `none` is
Python `None` (empty chain); `Except.error` models the crashes when the
last entry is a list that is empty (`IndexError`) or that ends in another
list (`AttributeError` on `.split`). -/
def get_resource_from_prov (prov : List PEntry) : Except PyErr (Option String) :=
  match prov.getLast? with
  | none => Except.ok none
  | some (PEntry.str s) => Except.ok (some (firstSplit ':' s))
  | some (PEntry.list inner) =>
    match inner.getLast? with
    | none => Except.error PyErr.pyError
    | some (PEntry.str s) => Except.ok (some (firstSplit ':' s))
    | some (PEntry.list _) => Except.error PyErr.pyError

/-- `get_resource_from_prov` applied to a single provenance entry, as the
search loop at engine.py:211-217 does.  For a string entry CPython treats
the string itself as the sequence, so `prov[-1]` is its last character
(and an empty string is falsy, giving `None`). -/
def get_resource_from_prov_entry : PEntry → Except PyErr (Option String)
  | PEntry.str s =>
    match s.data.getLast? with
    | none => Except.ok none
    | some c => Except.ok (some (firstSplit ':' (String.mk [c])))
  | PEntry.list l => get_resource_from_prov l

/-! ## `set_data` (engine.py:179-236) -/
/-- The metadata dictionary (`json_info`) handled by `set_data`.  `none`
marks an absent key; `rest` stands for the remaining free-form
descriptive fields, which `set_data` neither reads nor writes. -/
structure SDJson where
  CpacProvenance : Option (List PEntry)
  RawSources : Option (List String)
  rest : List (String × String)
deriving DecidableEq

/-- CPython falsiness of the metadata dictionary: no keys at all
(engine.py:195 `if not json_info`). -/
def SDJson.isEmptyDict (j : SDJson) : Bool :=
  j.CpacProvenance.isNone && j.RawSources.isNone && j.rest.isEmpty

/-- One pool record (`rpool[resource][pipe_idx]`): the `'data'` and
`'json'` slots (engine.py:235-236).  Both are `Option` because
engine.py:221 first installs an empty dict. -/
structure SDRec (ν : Type) where
  data : Option (ν × String)
  json : Option SDJson
deriving DecidableEq

/-- The mutable state of a `ResourcePool` as far as `set_data` touches it:
`self.rpool`, `self.pipe_list` and `self.rtable` (engine.py:42-53). -/
structure PoolState (ν : Type) where
  rpool : List (String × List (String × SDRec ν))
  pipe_list : List String
  rtable : List (String × List (String × List (String × List String)))
deriving DecidableEq

/-- Inner loop of `ResourcePool.parse_bids_tags` (engine.py:169-177):
builds `tag_dct` from the underscore-separated tags; a tag without a dash
raises `IndexError` at `tag.split('-')[1]`. -/
def buildTags : List String → List (String × String) →
    Except PyErr (List (String × String))
  | [], acc => Except.ok acc
  | tag :: rest, acc =>
    match (splitChar '-' tag.data).get? 1 with
    | none => Except.error PyErr.pyError
    | some v =>
        buildTags rest (dictSet acc (firstSplit '-' tag) (String.mk v))

/-- `ResourcePool.parse_bids_tags` (engine.py:169-177): the final
underscore component is the resource type, the remaining tags become
`tag_dct`, which starts as `{'None': 'None'}`. -/
def parse_bids_tags (resource : String) :
    Except PyErr (String × List (String × String)) :=
  match buildTags ((splitChar '_' resource.data).map String.mk).dropLast
      [("None", "None")] with
  | Except.error e => Except.error e
  | Except.ok tag_dct =>
    Except.ok (((splitChar '_' resource.data).map String.mk).getLastD "",
      tag_dct)

/-- The `rtable` update of `set_data` (engine.py:229-233); a tag present
whose value dict lacks the new value raises `KeyError` at
engine.py:232. -/
def rtableTags (resource : String) :
    List (String × String) → List (String × List (String × List String)) →
    Except PyErr (List (String × List (String × List String)))
  | [], tmap => Except.ok tmap
  | (tag, val) :: rest, tmap =>
    match dictGet (if dictMem tmap tag then tmap
                   else dictSet tmap tag [(val, [])]) tag with
    | none => Except.error PyErr.pyError
    | some vmap =>
      match dictGet vmap val with
      | none => Except.error PyErr.pyError
      | some lst =>
        rtableTags resource rest
          (dictSet (if dictMem tmap tag then tmap
                    else dictSet tmap tag [(val, [])]) tag
            (dictSet vmap val (if resource ∈ lst then lst
                               else lst ++ [resource])))

/-- The `pipe_idx` a matching entry contributes in the search loop
(engine.py:213-217): a list entry gives its own lineage key, a string
entry is used verbatim. -/
def search_pipe_hit (idx : PEntry) : Except PyErr String :=
  match idx with
  | PEntry.list l =>
    match generate_prov_string l with
    | none => Except.error PyErr.pyError
    | some rk => Except.ok rk.2
  | PEntry.str s => Except.ok s

/-- The pruning search loop of `set_data` (engine.py:210-217): the first
entry of the current provenance whose (last-character, for string
entries) resource matches selects the pipe key to delete. -/
def search_pipe (resource : String) : List PEntry → String → Except PyErr String
  | [], pi => Except.ok pi
  | idx :: rest, pi =>
    match get_resource_from_prov_entry idx with
    | Except.error e => Except.error e
    | Except.ok r =>
      if r = some resource then search_pipe_hit idx
      else search_pipe resource rest pi

/-- Lines 199-219 of `set_data`: create the resource's dict if absent;
otherwise, unless forking, locate the entry at the pre-append lineage key
and delete it. -/
def sdPrune {ν : Type} (st : PoolState ν) (resource : String)
    (current_prov_list : List PEntry) (pipe_idx : String) (fork : Bool) :
    Except PyErr (PoolState ν) :=
  match dictGet st.rpool resource with
  | none => Except.ok { st with rpool := dictSet st.rpool resource [] }
  | some strats =>
    if fork then Except.ok st
    else
      match get_resource_from_prov current_prov_list with
      | Except.error e => Except.error e
      | Except.ok r0 =>
        match (if r0 = some resource then
                 match generate_prov_string current_prov_list with
                 | none => Except.error PyErr.pyError
                 | some rk => Except.ok (rk.2, !(dictMem strats rk.2))
               else Except.ok (pipe_idx, true) :
               Except PyErr (String × Bool)) with
        | Except.error e => Except.error e
        | Except.ok pi1s =>
          match (if pi1s.2 then search_pipe resource current_prov_list pi1s.1
                 else Except.ok pi1s.1) with
          | Except.error e => Except.error e
          | Except.ok pi2 =>
            if dictMem strats pi2 then
              Except.ok { st with
                rpool := dictSet st.rpool resource (dictDel strats pi2) }
            else Except.ok st

/-- Lines 220-221 and 235-236 of `set_data` on the resource's strat dict:
install an empty record at the new lineage key if absent, then store the
`'data'` and `'json'` slots. -/
def sdInsStrats {ν : Type} (strats : List (String × SDRec ν)) (node : ν)
    (output : String) (json_info : SDJson) (new_pipe_idx : String) :
    List (String × SDRec ν) :=
  dictSet
    (if dictMem strats new_pipe_idx then strats
     else dictSet strats new_pipe_idx { data := none, json := none })
    new_pipe_idx { data := some (node, output), json := some json_info }

/-- Line 227-228 of `set_data`: ensure the `rtable` slot for the resource
type exists. -/
def sdRtable0 (rtable : List (String × List (String × List (String × List String))))
    (resource_type : String) :
    List (String × List (String × List (String × List String))) :=
  if dictMem rtable resource_type then rtable
  else dictSet rtable resource_type []

/-- Lines 220-236 of `set_data`: install the record at the new lineage
key, extend `pipe_list`, and update `rtable`. -/
def sdInsert {ν : Type} (st : PoolState ν) (resource : String) (node : ν)
    (output : String) (json_info : SDJson) (new_pipe_idx : String) :
    Except PyErr (PoolState ν) :=
  match parse_bids_tags resource with
  | Except.error e => Except.error e
  | Except.ok rt_tags =>
    match rtableTags resource rt_tags.2
        ((dictGet (sdRtable0 st.rtable rt_tags.1) rt_tags.1).getD []) with
    | Except.error e => Except.error e
    | Except.ok tmap =>
      Except.ok
        { rpool := dictSet st.rpool resource
            (sdInsStrats ((dictGet st.rpool resource).getD [])
              node output json_info new_pipe_idx),
          pipe_list := if new_pipe_idx ∈ st.pipe_list then st.pipe_list
                       else st.pipe_list ++ [new_pipe_idx],
          rtable := dictSet (sdRtable0 st.rtable rt_tags.1) rt_tags.1 tmap }

/-- Lines 182-188 of `set_data`: the copied provenance list with the new
`"{resource}:{node_name}"` step appended unless injecting. -/
def sdNewProvList (json_info : SDJson) (resource node_name : String)
    (inject : Bool) : List PEntry :=
  if inject then json_info.CpacProvenance.getD []
  else json_info.CpacProvenance.getD []
    ++ [PEntry.str (resource ++ ":" ++ node_name)]

/-- The lineage key a successful `set_data` stores under: CPython `str`
of the new provenance list (engine.py:190, via `generate_prov_string`). -/
def sdNewKey (json_info : SDJson) (resource node_name : String)
    (inject : Bool) : String :=
  pyStr (sdNewProvList json_info resource node_name inject)

/-- Lines 195-197 of `set_data`: a falsy metadata dict is replaced by
`{'RawSources': [resource]}`, then `CpacProvenance` is set to the new
provenance list.  This happens on the copy of the caller's dict. -/
def sdStoredJson (json_info : SDJson) (resource : String)
    (new_prov_list : List PEntry) : SDJson :=
  let base : SDJson :=
    if json_info.isEmptyDict then
      { CpacProvenance := none, RawSources := some [resource], rest := [] }
    else json_info
  { base with CpacProvenance := some new_prov_list }

/-- `ResourcePool.set_data` (engine.py:179-236).  Line 181 copies the
caller's metadata (`json_info = json_info.copy()`), so every later
mutation hits the copy; the model mirrors this by threading the mutated
copy (`sdStoredJson`) separately and returning the caller's mapping
unchanged alongside the new pool state. -/
def set_data {ν : Type} (st : PoolState ν) (resource : String) (node : ν)
    (output : String) (json_info : SDJson) (pipe_idx : String)
    (node_name : String) (fork : Bool) (inject : Bool) :
    Except PyErr (PoolState ν × SDJson) :=
  -- lines 182-188 build the new provenance on the copy (`sdNewProvList`);
  -- lines 189-194 re-raise the `IndexError` of an empty chain
  match generate_prov_string (sdNewProvList json_info resource node_name
      inject) with
  | none => Except.error PyErr.emptyProvenance
  | some rk =>
    match sdPrune st resource (json_info.CpacProvenance.getD [])
        pipe_idx fork with
    | Except.error e => Except.error e
    | Except.ok st1 =>
      match sdInsert st1 resource node output
          (sdStoredJson json_info resource
            (sdNewProvList json_info resource node_name inject)) rk.2 with
      | Except.error e => Except.error e
      | Except.ok st2 => Except.ok (st2, json_info)

/-! ## `get` with a list of alternatives (engine.py:257-270) -/
/-- The loop of `ResourcePool.get` over a list of alternative resource
names: the first label present in the pool wins. -/
def rp_get_first {α : Type} (rpool : List (String × α)) :
    List String → Option (α × String)
  | [] => none
  | label :: rest =>
    match dictGet rpool label with
    | some v => some (v, label)
    | none => rp_get_first rpool rest

/-- `ResourcePool.get` (engine.py:257-270) for a list of alternative
resource names (with `report_fetched=False`): the first present name's
slice, `None` when absent but `optional`, and the "none of the listed
resources" exception otherwise. -/
def get_alternatives {α : Type} (rpool : List (String × α))
    (resource : List String) (optional : Bool) : Except PyErr (Option α) :=
  match rp_get_first rpool resource with
  | some vl => Except.ok (some vl.1)
  | none =>
    if optional then Except.ok none
    else Except.error PyErr.resourceNotFound

/-! ## `get_strats` (engine.py:390-614)

The record content a strategy scan reads: each pool record's `'json'`
dict, of which `get_strats` uses only `CpacProvenance` (always written by
`set_data`) and `CpacVariant`.  Sub-pools only ever copy records wholesale
(engine.py:583-584), so the model's result maps each merged lineage key to
the `(resource, strat-key)` pairs of the records copied in; the
`'data'`/`'json'` payloads ride along unchanged and are not re-modelled. -/
/-- The `'json'` dict of a pool record as `get_strats` reads it. -/
structure GJson where
  CpacProvenance : List PEntry
  CpacVariant : Option (List (String × List String))
deriving DecidableEq

/-- `resource → strat-key → json` slice of `self.rpool`. -/
abbrev GPool := List (String × List (String × GJson))

/-- The sub-pools `get_strats` returns: merged lineage key → the
`(resource, strat key)` of each record copied into that sub-pool. -/
abbrev GStrats := List (String × List (String × String))

/-- One declared input of a node block: a plain name, a list of
alternatives, or a linked tuple (engine.py:401-417). -/
inductive RSpec where
  | single : String → RSpec
  | alts : List String → RSpec
  | linked : List String → RSpec
deriving DecidableEq

/-- One element of `resource_list` after the linked tuples are expanded:
a name, or a still-unresolved list of alternatives. -/
inductive RItem where
  | name : String → RItem
  | alist : List String → RItem
deriving DecidableEq

/-- CPython truthiness of `self.get(label, optional=True)`
(engine.py:406-410, 430): the label is present and its dict non-empty. -/
def rp_truthy (pool : GPool) (label : String) : Bool :=
  match dictGet pool label with
  | some l => !l.isEmpty
  | none => false

/-- Lines 397-417 of `get_strats`: collect the linked groups (tuples with
at least two present members, each filtered to present labels) and the
flat `resource_list`. -/
def phase1 (pool : GPool) : List RSpec → List (List String) × List RItem
  | [] => ([], [])
  | RSpec.single s :: rest =>
    ((phase1 pool rest).1, RItem.name s :: (phase1 pool rest).2)
  | RSpec.alts ls :: rest =>
    ((phase1 pool rest).1, RItem.alist ls :: (phase1 pool rest).2)
  | RSpec.linked ls :: rest =>
    ((if (ls.filter (rp_truthy pool)).length < 2 then (phase1 pool rest).1
      else ls.filter (rp_truthy pool) :: (phase1 pool rest).1),
     (ls.filter (rp_truthy pool)).map RItem.name ++ (phase1 pool rest).2)

/-- `self.get(resource, report_fetched=True, optional=True)` as the scan
loop calls it (engine.py:427-429): the record dict and the fetched
label. -/
def fetchItem (pool : GPool) : RItem → Option (List (String × GJson) × String)
  | RItem.name s =>
    match dictGet pool s with
    | some dct => some (dct, s)
    | none => none
  | RItem.alist ls => rp_get_first pool ls

/-- The running state of the scan loop (engine.py:419-450). -/
structure ScanSt where
  len_inputs : Nat
  total_pool : List (List (List PEntry))
  variant_pool : List (String × List String)
deriving DecidableEq

/-- Lines 441-446: extend the resource's variant registry with every
fork-tag list of a record's `CpacVariant` plus the `NO-`-marked head; an
empty tag list raises `IndexError` at `val[0]`.  (The guard
`val not in variant_pool[...]` compares a list against strings and is
always true, so it is not modelled.) -/
def addVariants : List (String × List String) → List String →
    Except PyErr (List String)
  | [], vp => Except.ok vp
  | kv :: rest, vp =>
    match kv.2 with
    | [] => Except.error PyErr.pyError
    | h :: t => addVariants rest (vp ++ (h :: t) ++ ["NO-" ++ h])

/-- Lines 435-446: walk one resource's records, collecting their
provenances into `sub_pool` and feeding `variant_pool`. -/
def scanStrats (fetched : String) :
    List (String × GJson) → List (List PEntry) → List (String × List String) →
    Except PyErr (List (List PEntry) × List (String × List String))
  | [], sp, vp => Except.ok (sp, vp)
  | kj :: rest, sp, vp =>
    match kj.2.CpacVariant with
    | none =>
      scanStrats fetched rest (sp ++ [kj.2.CpacProvenance])
        (if dictMem vp fetched then vp else dictSet vp fetched [])
    | some vm =>
      match addVariants vm
          ((dictGet (if dictMem vp fetched then vp
                     else dictSet vp fetched []) fetched).getD []) with
      | Except.error e => Except.error e
      | Except.ok nv =>
        scanStrats fetched rest (sp ++ [kj.2.CpacProvenance])
          (dictSet (if dictMem vp fetched then vp
                    else dictSet vp fetched []) fetched nv)

/-- Lines 426-450 for one entry of `resource_list`: an absent (or empty,
hence falsy) resource lowers the active input count, a present one
contributes its provenance list to `total_pool`. -/
def scanOne (pool : GPool) (st : ScanSt) (item : RItem) :
    Except PyErr ScanSt :=
  match fetchItem pool item with
  | none => Except.ok { st with len_inputs := st.len_inputs - 1 }
  | some df =>
    if df.1.isEmpty then Except.ok { st with len_inputs := st.len_inputs - 1 }
    else
      match scanStrats df.2 df.1 [] st.variant_pool with
      | Except.error e => Except.error e
      | Except.ok spvp =>
        Except.ok { st with total_pool := st.total_pool ++ [spvp.1],
                            variant_pool := spvp.2 }

/-- The whole scan loop over `resource_list`. -/
def scanAll (pool : GPool) : List RItem → ScanSt → Except PyErr ScanSt
  | [], st => Except.ok st
  | item :: rest, st =>
    match scanOne pool st item with
    | Except.error e => Except.error e
    | Except.ok st' => scanAll pool rest st'

/-- `itertools.product` (engine.py:466): every choice of one element per
list, rightmost varying fastest. -/
def pyProduct {α : Type} : List (List α) → List (List α)
  | [] => [[]]
  | l :: rest =>
    (l.map (fun x => (pyProduct rest).map (fun t => x :: t))).flatten

/-- CPython `str` of a merged strategy (a list of provenance lists), the
sub-pool key (engine.py:478, 573). -/
def pyStrLL (ll : List (List PEntry)) : String := pyStr (ll.map PEntry.list)

/-- Lines 474-481: keep the first occurrence of each string form. -/
def dedupByStrAux : List (List (List PEntry)) → List String →
    List (List (List PEntry))
  | [], _ => []
  | c :: rest, seen =>
    if pyStrLL c ∈ seen then dedupByStrAux rest seen
    else c :: dedupByStrAux rest (seen ++ [pyStrLL c])

/-- The duplicate removal over the raw product (engine.py:473-481). -/
def dedupByStr (ls : List (List (List PEntry))) : List (List (List PEntry)) :=
  dedupByStrAux ls []

/-- Lines 485-492: key each chosen strat's json by its resource
(`json_dct`); a lookup that misses raises `KeyError`. -/
def buildJsonDct (pool : GPool) :
    List (List PEntry) → List (String × GJson) →
    Except PyErr (List (String × GJson))
  | [], acc => Except.ok acc
  | strat :: rest, acc =>
    match generate_prov_string strat with
    | none => Except.error PyErr.pyError
    | some rk =>
      match dictGet pool rk.1 with
      | none => Except.error PyErr.pyError
      | some strats =>
        match dictGet strats rk.2 with
        | none => Except.error PyErr.pyError
        | some j => buildJsonDct pool rest (dictSet acc rk.1 j)

/-- Lines 580-584 for one surviving combination: the records copied into
the new sub-pool, named by `(resource, strat key)`. -/
def comboValue (pool : GPool) :
    List (List PEntry) → Except PyErr (List (String × String))
  | [] => Except.ok []
  | strat :: rest =>
    match generate_prov_string strat with
    | none => Except.error PyErr.pyError
    | some rk =>
      match dictGet pool rk.1 with
      | none => Except.error PyErr.pyError
      | some strats =>
        match dictGet strats rk.2 with
        | none => Except.error PyErr.pyError
        | some _ =>
          match comboValue pool rest with
          | Except.error e => Except.error e
          | Except.ok v => Except.ok ((rk.1, rk.2) :: v)

/-- Python `'NO-' in label` (engine.py:521, 534). -/
def hasNOsub (s : String) : Bool := hasSub ['N', 'O', '-'] s.data

/-- Lines 514-518 / 527-531: the applied fork tags of a strat are the
heads `val[0]` of its `CpacVariant` lists; an empty list raises
`IndexError`. -/
def headsOf : List (String × List String) → Except PyErr (List String)
  | [] => Except.ok []
  | kv :: rest =>
    match kv.2 with
    | [] => Except.error PyErr.pyError
    | h :: _ =>
      match headsOf rest with
      | Except.error e => Except.error e
      | Except.ok hs => Except.ok (h :: hs)

/-- Lines 520-524 / 532-537: extend the applied-tag list with a
`NO-`-marked entry for every spread label that is neither a `NO-` marker
itself nor already applied. -/
def augmentStrat (strat : List String) : List String → List String
  | [] => strat
  | l :: rest =>
    if hasNOsub l then augmentStrat strat rest
    else if l ∈ strat then augmentStrat strat rest
    else augmentStrat (strat ++ ["NO-" ++ l]) rest

/-- Lines 539-565: the drop test over every variant of the current
spread. -/
def pairDrop (cs os cspread ospread : List String) : Bool :=
  cspread.any (fun variant =>
    (!(decide (variant ∈ os)) && decide (variant ∈ ospread)
        && decide (variant ∈ cs))
    || (decide (variant ∈ os) && decide (variant ∈ ospread)
        && !(decide (variant ∈ cs))))

/-- Lines 513-565 for one ordered pair of linked labels.  `list(set(…))`
(line 519/532) is modelled by `dedup`; only membership in it is ever
observed, so the unspecified CPython set order does not matter.  A label
missing from `variant_pool` raises `KeyError`. -/
def pairEval (vp : List (String × List String)) (xlabel ylabel : String)
    (xjson yjson : GJson) : Except PyErr Bool :=
  match headsOf (xjson.CpacVariant.getD []) with
  | Except.error e => Except.error e
  | Except.ok xheads =>
    match dictGet vp xlabel with
    | none => Except.error PyErr.pyError
    | some xsp =>
      match headsOf (yjson.CpacVariant.getD []) with
      | Except.error e => Except.error e
      | Except.ok yheads =>
        match dictGet vp ylabel with
        | none => Except.error PyErr.pyError
        | some ysp =>
          Except.ok (pairDrop (augmentStrat xheads xsp.dedup)
            (augmentStrat yheads ysp.dedup) xsp.dedup ysp.dedup)

/-- The `ylabel` loop (engine.py:503-567), stopping at the first drop. -/
def yLoop (vp : List (String × List String)) (jd : List (String × GJson))
    (xlabel : String) (xjson : GJson) : List String → Except PyErr Bool
  | [] => Except.ok false
  | y :: rest =>
    if xlabel = y then yLoop vp jd xlabel xjson rest
    else
      match dictGet jd y with
      | none => Except.error PyErr.pyError
      | some yjson =>
        match pairEval vp xlabel y xjson yjson with
        | Except.error e => Except.error e
        | Except.ok d =>
          if d then Except.ok true else yLoop vp jd xlabel xjson rest

/-- The `xlabel` loop (engine.py:499-567). -/
def xLoop (vp : List (String × List String)) (jd : List (String × GJson))
    (linked : List String) : List String → Except PyErr Bool
  | [] => Except.ok false
  | x :: rest =>
    match dictGet jd x with
    | none => Except.error PyErr.pyError
    | some xjson =>
      match yLoop vp jd x xjson linked with
      | Except.error e => Except.error e
      | Except.ok d => if d then Except.ok true else xLoop vp jd linked rest

/-- The loop over linked groups (engine.py:495-567). -/
def groupLoop (vp : List (String × List String)) (jd : List (String × GJson)) :
    List (List String) → Except PyErr Bool
  | [] => Except.ok false
  | g :: rest =>
    match xLoop vp jd g g with
    | Except.error e => Except.error e
    | Except.ok d => if d then Except.ok true else groupLoop vp jd rest

/-- Lines 483-596: process each deduplicated combination — build
`json_dct`, run the conflict pruning, and key the surviving sub-pool by
the merged string.  (The json-merging of lines 586-596 only fills the
sub-pool's metadata payload and is not re-modelled.) -/
def processCombos (pool : GPool) (linked : List (List String))
    (vp : List (String × List String)) :
    List (List (List PEntry)) → GStrats → Except PyErr GStrats
  | [], acc => Except.ok acc
  | combo :: rest, acc =>
    match buildJsonDct pool combo [] with
    | Except.error e => Except.error e
    | Except.ok jd =>
      match groupLoop vp jd linked with
      | Except.error e => Except.error e
      | Except.ok drop =>
        if drop then processCombos pool linked vp rest acc
        else
          match comboValue pool combo with
          | Except.error e => Except.error e
          | Except.ok v =>
            processCombos pool linked vp rest (dictSet acc (pyStrLL combo) v)

/-- Lines 599-612 for the single-input branch: one sub-pool per lineage,
keyed by that lineage's own key. -/
def processSingleList (pool : GPool) :
    List (List PEntry) → GStrats → Except PyErr GStrats
  | [], acc => Except.ok acc
  | prov :: rest, acc =>
    match generate_prov_string prov with
    | none => Except.error PyErr.pyError
    | some rk =>
      match dictGet pool rk.1 with
      | none => Except.error PyErr.pyError
      | some strats =>
        match dictGet strats rk.2 with
        | none => Except.error PyErr.pyError
        | some _ => processSingleList pool rest (dictSet acc rk.2 [(rk.1, rk.2)])

/-- The outer loop of the single-input branch (engine.py:599-600). -/
def processSingles (pool : GPool) :
    List (List (List PEntry)) → GStrats → Except PyErr GStrats
  | [], acc => Except.ok acc
  | lst :: rest, acc =>
    match processSingleList pool lst acc with
    | Except.error e => Except.error e
    | Except.ok acc2 => processSingles pool rest acc2

/-- `ResourcePool.get_strats` (engine.py:390-614): linked-group
collection, the scan, the "none of the listed resources" failure
(line 452-456), and either the cross-product branch (`len_inputs > 1`) or
the single-input branch. -/
def get_strats (pool : GPool) (resources : List RSpec) :
    Except PyErr GStrats :=
  match scanAll pool (phase1 pool resources).2
      { len_inputs := (phase1 pool resources).2.length,
        total_pool := [], variant_pool := [] } with
  | Except.error e => Except.error e
  | Except.ok st =>
    if st.total_pool.isEmpty then Except.error PyErr.pyError
    else if 1 < st.len_inputs then
      processCombos pool (phase1 pool resources).1 st.variant_pool
        (dedupByStr (pyProduct st.total_pool)) []
    else processSingles pool st.total_pool []

/-- The provenance lists of a resource's records, in pool order. -/
def provsOf (pool : GPool) (r : String) : List (List PEntry) :=
  ((dictGet pool r).getD []).map (fun kj => kj.2.CpacProvenance)

/-- Every `CpacVariant` tag list of a record is non-empty (else the scan
crashes at `val[0]`). -/
def gVariantOk (j : GJson) : Bool :=
  match j.CpacVariant with
  | none => true
  | some vm => vm.all (fun kv => !kv.2.isEmpty)

/-- A well-formed pool as `set_data` builds it: distinct resource names,
distinct lineage keys per resource, every record keyed by the CPython
`str` of its own provenance whose last step names its resource, plain
printable provenance strings, and non-empty variant tag lists. -/
def Coherent (pool : GPool) : Prop :=
  (pool.map Prod.fst).Nodup ∧
  ∀ rs ∈ pool, (rs.2.map Prod.fst).Nodup ∧
    ∀ kj ∈ rs.2,
      generate_prov_string kj.2.CpacProvenance = some (rs.1, kj.1) ∧
      wfL kj.2.CpacProvenance = true ∧ gVariantOk kj.2 = true

instance (pool : GPool) : Decidable (Coherent pool) := by
  unfold Coherent
  infer_instance

/-! ## Witness material: a concrete metadata dict, and the concrete
states produced by concrete inserts -/
/-- Concrete caller metadata used by the witnesses. -/
def demoJson : SDJson := ⟨some [PEntry.str "T1w:ingress"], none, []⟩

/-- State after one non-forking insert into the empty pool. -/
def demoStep1 : PoolState Unit :=
  match set_data (ν := Unit) ⟨[], [], []⟩ "desc-preproc_T1w" () "out"
      demoJson "p" "stageA" false false with
  | Except.ok p => p.1
  | Except.error _ => ⟨[], [], []⟩

/-- State after repeating the same non-forking insert. -/
def demoStep2 : PoolState Unit :=
  match set_data (ν := Unit) demoStep1 "desc-preproc_T1w" () "out"
      demoJson "p" "stageA" false false with
  | Except.ok p => p.1
  | Except.error _ => ⟨[], [], []⟩

/-- A pool already holding one record of the resource under key `"k0"`. -/
def demoPoolK0 : PoolState Unit :=
  ⟨[("desc-preproc_T1w",
      [("k0", { data := some ((), "o0"), json := some demoJson })])], [], []⟩

/-- State after a forking insert into `demoPoolK0`. -/
def demoForkStep : PoolState Unit :=
  match set_data (ν := Unit) demoPoolK0 "desc-preproc_T1w" () "out"
      demoJson "p" "stageA" true false with
  | Except.ok p => p.1
  | Except.error _ => ⟨[], [], []⟩

/-! ## Concrete pools for the `get_strats` witnesses -/
/-- A coherent two-resource pool: `alpha` with two lineages, `beta` with
one. -/
def demoGPool : GPool :=
  [("alpha",
     [(pyStr [PEntry.str "alpha:ing1"],
       { CpacProvenance := [PEntry.str "alpha:ing1"], CpacVariant := none }),
      (pyStr [PEntry.str "alpha:ing2"],
       { CpacProvenance := [PEntry.str "alpha:ing2"], CpacVariant := none })]),
   ("beta",
     [(pyStr [PEntry.str "beta:ing"],
       { CpacProvenance := [PEntry.str "beta:ing"], CpacVariant := none })])]

/-- An entry of `resource_list` counts towards `len_inputs` iff its fetch
succeeds with a non-empty (truthy) record dict (engine.py:430-433). -/
def presentItem (pool : GPool) (item : RItem) : Bool :=
  match fetchItem pool item with
  | none => false
  | some df => !df.1.isEmpty

/-- A two-member linked group where resource `A` can fork on tag `T`
(applied on its first lineage) and resource `B` knows `T` but its first
lineage applied `U` instead. -/
def demoLinkPool : GPool :=
  [("A", [(pyStr [PEntry.str "A:n1"],
           { CpacProvenance := [PEntry.str "A:n1"],
             CpacVariant := some [("scan", ["T", "U"])] }),
          (pyStr [PEntry.str "A:n2"],
           { CpacProvenance := [PEntry.str "A:n2"],
             CpacVariant := some [("scan", ["U", "T"])] })]),
   ("B", [(pyStr [PEntry.str "B:m1"],
           { CpacProvenance := [PEntry.str "B:m1"],
             CpacVariant := some [("scan", ["U", "T"])] }),
          (pyStr [PEntry.str "B:m2"],
           { CpacProvenance := [PEntry.str "B:m2"],
             CpacVariant := some [("scan", ["T", "U"])] })])]

/-- The linked request `[("A", "B")]`. -/
def demoLinkSpecs : List RSpec := [RSpec.linked ["A", "B"]]

/-- The scan state `get_strats` reaches on the linked demo pool. -/
def demoLinkScan : ScanSt :=
  match scanAll demoLinkPool (phase1 demoLinkPool demoLinkSpecs).2
      { len_inputs := (phase1 demoLinkPool demoLinkSpecs).2.length,
        total_pool := [], variant_pool := [] } with
  | Except.ok st => st
  | Except.error _ => { len_inputs := 0, total_pool := [], variant_pool := [] }

/-- The sub-pools `get_strats` returns on the linked demo pool. -/
def demoLinkStrats : GStrats :=
  match get_strats demoLinkPool demoLinkSpecs with
  | Except.ok ns => ns
  | Except.error _ => []

/-- The conflicting combination: `A`:s `T`-lineage with `B`:s
`U`-lineage. -/
def demoCombo : List (List PEntry) :=
  [[PEntry.str "A:n1"], [PEntry.str "B:m1"]]

/-- The `json_dct` built for the conflicting combination. -/
def demoJd : List (String × GJson) :=
  match buildJsonDct demoLinkPool demoCombo [] with
  | Except.ok jd => jd
  | Except.error _ => []

/-! ## Fork-tag commitment (connect_block) -/
/-- `ResourcePool.get_raw_label` (engine.py:120-126): strip the first
underscore segment that contains `desc-` from the resource name. -/
def get_raw_label (resource : String) : String :=
  match (splitChar '_' resource.data).find?
      (fun tag => hasSub ['d', 'e', 's', 'c', '-'] tag) with
  | some tag => String.mk (replaceSub (tag ++ ['_']) [] resource.data)
  | none => resource

/-- Line 1254: inside the connecting branch, this invocation forks when
the applicability switch also carries a `False` branch. -/
def connect_fork (switch : List Bool) : Bool := decide (false ∈ switch)

/-- Lines 1362-1368: when the invocation forks, or more than one option
variant is active in the block (`opts`), or more than one option is
active across all blocks of the connection (`all_opts`), append the
stage name to the output label's fork-tag list under its raw label
inside `CpacVariant` (creating the dict and the list when missing);
otherwise leave the metadata alone. -/
def commit_variant_tag (switch : List Bool) (opts all_opts : List String)
    (label node_name : String)
    (cv : Option (List (String × List String))) :
    Option (List (String × List String)) :=
  if connect_fork switch || decide (1 < opts.length)
      || decide (1 < all_opts.length) then
    some (dictSet (cv.getD []) (get_raw_label label)
      ((dictGet (cv.getD []) (get_raw_label label)).getD [] ++ [node_name]))
  else cv

/-! ## Theorems -/

theorem dictMem_iff_dictGet {κ α : Type} [DecidableEq κ]
    (d : List (κ × α)) (k : κ) : dictMem d k = true ↔ (dictGet d k).isSome := by
  induction d with
  | nil => simp [dictMem, dictGet]
  | cons kv rest ih =>
    by_cases h : kv.1 = k <;> simp [dictMem, dictGet, h, ih]

theorem dictGet_dictSet_self {κ α : Type} [DecidableEq κ]
    (d : List (κ × α)) (k : κ) (v : α) : dictGet (dictSet d k v) k = some v := by
  induction d with
  | nil => simp [dictSet, dictGet]
  | cons kv rest ih =>
    by_cases h : kv.1 = k <;> simp [dictSet, dictGet, h, ih]

theorem dictGet_dictSet_ne {κ α : Type} [DecidableEq κ]
    (d : List (κ × α)) (k k' : κ) (v : α) (h : k ≠ k') :
    dictGet (dictSet d k v) k' = dictGet d k' := by
  induction d with
  | nil => simp [dictSet, dictGet, h]
  | cons kv rest ih =>
    by_cases hh : kv.1 = k
    · simp [dictSet, dictGet, hh, h]
    · by_cases hk : kv.1 = k' <;> simp [dictSet, dictGet, hh, hk, ih, Ne.symm h]

theorem dictGet_dictDel_ne {κ α : Type} [DecidableEq κ]
    (d : List (κ × α)) (k k' : κ) (h : k ≠ k')
    (hnd : (d.map Prod.fst).Nodup) :
    dictGet (dictDel d k) k' = dictGet d k' := by
  induction d with
  | nil => simp [dictDel]
  | cons kv rest ih =>
    simp only [List.map_cons, List.nodup_cons] at hnd
    by_cases hh : kv.1 = k
    · -- deleting the head; `k'` cannot be the head key
      have hk' : kv.1 ≠ k' := by rw [hh]; exact h
      simp [dictDel, dictGet, hh, hk', h]
    · by_cases hk : kv.1 = k' <;>
        simp [dictDel, dictGet, hh, hk, ih hnd.2, Ne.symm h]

theorem dictSet_map_fst_mem {κ α : Type} [DecidableEq κ]
    (d : List (κ × α)) (k : κ) (v : α) (h : k ∈ d.map Prod.fst) :
    (dictSet d k v).map Prod.fst = d.map Prod.fst := by
  induction d with
  | nil => simp at h
  | cons kv rest ih =>
    by_cases hh : kv.1 = k
    · simp [dictSet, hh]
    · simp only [List.map_cons, List.mem_cons] at h
      rcases h with h | h
      · exact absurd h.symm hh
      · simp [dictSet, hh, ih h]

theorem dictSet_map_fst_notMem {κ α : Type} [DecidableEq κ]
    (d : List (κ × α)) (k : κ) (v : α) (h : k ∉ d.map Prod.fst) :
    (dictSet d k v).map Prod.fst = d.map Prod.fst ++ [k] := by
  induction d with
  | nil => simp [dictSet]
  | cons kv rest ih =>
    simp only [List.map_cons, List.mem_cons] at h
    push_neg at h
    have : kv.1 ≠ k := fun he => h.1 he.symm
    simp [dictSet, this, ih h.2]

theorem dictSet_length_mem {κ α : Type} [DecidableEq κ]
    (d : List (κ × α)) (k : κ) (v : α) (h : k ∈ d.map Prod.fst) :
    (dictSet d k v).length = d.length := by
  have := dictSet_map_fst_mem d k v h
  have h1 : ((dictSet d k v).map Prod.fst).length = (d.map Prod.fst).length := by
    rw [this]
  simpa using h1

theorem dictSet_length_notMem {κ α : Type} [DecidableEq κ]
    (d : List (κ × α)) (k : κ) (v : α) (h : k ∉ d.map Prod.fst) :
    (dictSet d k v).length = d.length + 1 := by
  have := dictSet_map_fst_notMem d k v h
  have h1 : ((dictSet d k v).map Prod.fst).length
      = (d.map Prod.fst).length + 1 := by rw [this]; simp
  simpa using h1

theorem dictDel_length_mem {κ α : Type} [DecidableEq κ]
    (d : List (κ × α)) (k : κ) (h : k ∈ d.map Prod.fst) :
    (dictDel d k).length + 1 = d.length := by
  induction d with
  | nil => simp at h
  | cons kv rest ih =>
    by_cases hh : kv.1 = k
    · simp [dictDel, hh]
    · simp only [List.map_cons, List.mem_cons] at h
      rcases h with h | h
      · exact absurd h.symm hh
      · simp only [dictDel, hh, if_false, List.length_cons]
        rw [← ih h]

theorem dictDel_length_le {κ α : Type} [DecidableEq κ]
    (d : List (κ × α)) (k : κ) : (dictDel d k).length ≤ d.length := by
  induction d with
  | nil => simp [dictDel]
  | cons kv rest ih =>
    by_cases hh : kv.1 = k
    · simp [dictDel, hh]
    · simp only [dictDel, hh, if_false, List.length_cons]
      omega

theorem dictSet_nodup {κ α : Type} [DecidableEq κ]
    (d : List (κ × α)) (k : κ) (v : α) (h : (d.map Prod.fst).Nodup) :
    ((dictSet d k v).map Prod.fst).Nodup := by
  by_cases hm : k ∈ d.map Prod.fst
  · rw [dictSet_map_fst_mem d k v hm]; exact h
  · rw [dictSet_map_fst_notMem d k v hm]
    refine List.Nodup.append h (by simp) ?_
    intro a ha hb
    simp only [List.mem_singleton] at hb
    exact hm (hb ▸ ha)

theorem dictDel_map_fst_sublist {κ α : Type} [DecidableEq κ]
    (d : List (κ × α)) (k : κ) :
    ((dictDel d k).map Prod.fst).Sublist (d.map Prod.fst) := by
  induction d with
  | nil => simp [dictDel]
  | cons kv rest ih =>
    by_cases hh : kv.1 = k
    · simp only [dictDel, hh, if_true, List.map_cons]
      exact (List.sublist_cons_self _ _)
    · simp only [dictDel, hh, if_false, List.map_cons]
      exact ih.cons₂ kv.1

theorem dictDel_nodup {κ α : Type} [DecidableEq κ]
    (d : List (κ × α)) (k : κ) (h : (d.map Prod.fst).Nodup) :
    ((dictDel d k).map Prod.fst).Nodup :=
  (dictDel_map_fst_sublist d k).nodup h

theorem dictGet_mem_keys {κ α : Type} [DecidableEq κ]
    (d : List (κ × α)) (k : κ) (v : α) (h : dictGet d k = some v) :
    k ∈ d.map Prod.fst := by
  induction d with
  | nil => simp [dictGet] at h
  | cons kv rest ih =>
    by_cases hh : kv.1 = k
    · simp [hh]
    · simp only [dictGet, hh, if_false] at h
      simp [ih h]

theorem dictGet_of_mem_nodup {κ α : Type} [DecidableEq κ]
    (d : List (κ × α)) (kv : κ × α) (h : kv ∈ d)
    (hnd : (d.map Prod.fst).Nodup) : dictGet d kv.1 = some kv.2 := by
  induction d with
  | nil => simp at h
  | cons hd rest ih =>
    simp only [List.map_cons, List.nodup_cons] at hnd
    rcases List.mem_cons.mp h with h | h
    · simp [dictGet, h]
    · have hne : hd.1 ≠ kv.1 := by
        intro he
        exact hnd.1 (he ▸ (List.mem_map_of_mem Prod.fst h))
      simp [dictGet, hne, ih h hnd.2]

theorem dictGet_mem {κ α : Type} [DecidableEq κ]
    (d : List (κ × α)) (k : κ) (v : α) (h : dictGet d k = some v) :
    (k, v) ∈ d := by
  induction d with
  | nil => simp [dictGet] at h
  | cons kv rest ih =>
    by_cases hh : kv.1 = k
    · simp only [dictGet, hh, if_true, Option.some.injEq] at h
      apply List.mem_cons.mpr
      left
      cases kv
      simp_all
    · simp only [dictGet, hh, if_false] at h
      exact List.mem_cons_of_mem _ (ih h)

mutual
theorem PEntry.beq_iff : ∀ a b : PEntry, PEntry.beq a b = true ↔ a = b
  | PEntry.str a, PEntry.str b => by simp [PEntry.beq]
  | PEntry.str a, PEntry.list b => by simp [PEntry.beq]
  | PEntry.list a, PEntry.str b => by simp [PEntry.beq]
  | PEntry.list a, PEntry.list b => by
      simp only [PEntry.beq, PEntry.beqList_iff a b, PEntry.list.injEq]

theorem PEntry.beqList_iff : ∀ a b : List PEntry, PEntry.beqList a b = true ↔ a = b
  | [], [] => by simp [PEntry.beqList]
  | [], _ :: _ => by simp [PEntry.beqList]
  | _ :: _, [] => by simp [PEntry.beqList]
  | a :: as, b :: bs => by
      simp only [PEntry.beqList, Bool.and_eq_true, PEntry.beq_iff a b,
        PEntry.beqList_iff as bs, List.cons.injEq]
end

theorem good_ne_sq {s : String} (h : s.data.all goodChar = true) :
    ∀ c ∈ s.data, c ≠ sq := by
  intro c hc
  have hg := List.all_eq_true.mp h c hc
  simp only [goodChar, Bool.and_eq_true, decide_eq_true_eq] at hg
  exact hg.1.2

theorem takeStr_append (s rest : List Char) (h : ∀ c ∈ s, c ≠ sq) :
    takeStr (s ++ sq :: rest) = some (s, rest) := by
  induction s with
  | nil => simp [takeStr]
  | cons c s ih =>
    have hc : c ≠ sq := h c (by simp)
    simp only [List.cons_append, takeStr, hc, if_false, List.append_eq]
    rw [ih (fun d hd => h d (by simp [hd]))]

theorem encE_head (e : PEntry) :
    ∃ c cs, encE e = c :: cs ∧ (c = sq ∨ c = '[') := by
  cases e with
  | str s => exact ⟨sq, _, rfl, Or.inl rfl⟩
  | list l => exact ⟨'[', _, rfl, Or.inr rfl⟩

theorem lb_ne_sq : ('[' : Char) ≠ sq := by decide

theorem sq_ne_rb : sq ≠ (']' : Char) := by decide

theorem lb_ne_rb : ('[' : Char) ≠ (']' : Char) := by decide

theorem comma_ne_rb : (',' : Char) ≠ (']' : Char) := by decide

mutual
theorem fuelE_le_length : ∀ e : PEntry, fuelE e ≤ (encE e).length
  | PEntry.str s => by simp [fuelE, encE]
  | PEntry.list l => by
      have h := fuelL_le_length l
      simp only [fuelE, encE, List.length_cons, List.length_append,
        List.length_singleton]
      omega

theorem fuelL_le_length : ∀ l : List PEntry, fuelL l ≤ (encSep l).length + 1
  | [] => by simp [fuelL, encSep]
  | [e] => by
      have h := fuelE_le_length e
      simp only [fuelL, encSep]
      omega
  | e :: f :: r => by
      have h1 := fuelE_le_length e
      have h2 := fuelL_le_length (f :: r)
      simp only [fuelL, encSep, List.length_append, List.length_cons]
      omega
end

mutual
theorem parseE_enc : ∀ (e : PEntry) (f : Nat) (rest : List Char),
    wfE e = true → fuelE e ≤ f → parseE f (encE e ++ rest) = some (e, rest)
  | PEntry.str s, 0, rest, _, hfuel => by simp [fuelE] at hfuel
  | PEntry.str s, Nat.succ f, rest, hwf, _ => by
      have hgood : s.data.all goodChar = true := by simpa [wfE] using hwf
      have h1 : encE (PEntry.str s) ++ rest = sq :: (s.data ++ (sq :: rest)) := by
        simp [encE]
      rw [h1]
      simp only [parseE, if_pos]
      rw [takeStr_append s.data rest (good_ne_sq hgood)]
  | PEntry.list [], 0, rest, _, hfuel => by simp [fuelE] at hfuel
  | PEntry.list [], Nat.succ f, rest, _, _ => by
      have h1 : encE (PEntry.list []) ++ rest = '[' :: (']' :: rest) := by
        simp [encE, encSep]
      rw [h1]
      simp [parseE, lb_ne_sq]
  | PEntry.list (e :: l), 0, rest, _, hfuel => by simp [fuelE] at hfuel
  | PEntry.list (e :: l), Nat.succ f, rest, hwf, hfuel => by
      have hwl : wfL (e :: l) = true := by simpa [wfE] using hwf
      have hfl : fuelL (e :: l) ≤ f := by
        simp only [fuelE] at hfuel
        omega
      have h1 : encE (PEntry.list (e :: l)) ++ rest
          = '[' :: (encSep (e :: l) ++ (']' :: rest)) := by
        simp [encE]
      rw [h1]
      obtain ⟨c0, cs0, hc0, hor⟩ := encE_head e
      have hshape : ∃ t, encSep (e :: l) ++ (']' :: rest) = c0 :: t := by
        cases l with
        | nil => exact ⟨cs0 ++ (']' :: rest), by simp [encSep, hc0]⟩
        | cons f' r' =>
            exact ⟨cs0 ++ ((',' :: ' ' :: encSep (f' :: r')) ++ (']' :: rest)),
              by simp [encSep, hc0]⟩
      obtain ⟨t, ht⟩ := hshape
      have hc0rb : c0 ≠ ']' := by
        rcases hor with h | h
        · exact h ▸ sq_ne_rb
        · exact h ▸ lb_ne_rb
      rw [ht]
      simp only [parseE, if_true]
      rw [if_neg hc0rb, ← ht, parseElems_enc e l f rest hwl hfl,
        if_neg lb_ne_sq]

theorem parseElems_enc : ∀ (e : PEntry) (l : List PEntry) (f : Nat)
    (rest : List Char), wfL (e :: l) = true → fuelL (e :: l) ≤ f →
    parseElems f (encSep (e :: l) ++ (']' :: rest)) = some (e :: l, rest)
  | e, l, 0, rest, _, hfuel => by
      cases l <;> simp [fuelL] at hfuel
  | e, [], Nat.succ f, rest, hwl, hfuel => by
      have hwe : wfE e = true := by
        simp only [wfL, Bool.and_eq_true] at hwl
        exact hwl.1
      have hfe : fuelE e ≤ f := by
        simp only [fuelL] at hfuel
        omega
      have h1 : encSep [e] ++ (']' :: rest) = encE e ++ (']' :: rest) := by
        simp [encSep]
      rw [h1]
      simp only [parseElems]
      rw [parseE_enc e f (']' :: rest) hwe hfe]
      simp
  | e, f' :: r', Nat.succ f, rest, hwl, hfuel => by
      have hwe : wfE e = true := by
        simp only [wfL, Bool.and_eq_true] at hwl
        exact hwl.1
      have hwr : wfL (f' :: r') = true := by
        simp only [wfL, Bool.and_eq_true] at hwl
        exact (Bool.and_eq_true _ _).mpr ⟨hwl.2.1, hwl.2.2⟩
      have hm : max (fuelE e) (fuelL (f' :: r')) ≤ f := by
        simp only [fuelL] at hfuel
        omega
      have h1 : encSep (e :: f' :: r') ++ (']' :: rest)
          = encE e ++ (',' :: ' ' :: (encSep (f' :: r') ++ (']' :: rest))) := by
        simp [encSep]
      rw [h1]
      simp only [parseElems]
      rw [parseE_enc e f _ hwe (Nat.max_le.mp hm).1]
      simp only [if_true]
      rw [parseElems_enc f' r' f rest hwr (Nat.max_le.mp hm).2,
        if_neg comma_ne_rb]
end

theorem glpeList_append_str (l : List PEntry) (s : String) :
    glpeList (l ++ [PEntry.str s]) = some s := by
  induction l with
  | nil => simp [glpeList, get_last_prov_entry]
  | cons e rest ih =>
    cases h : rest ++ [PEntry.str s] with
    | nil => simp at h
    | cons f r =>
      simp only [List.cons_append, h, glpeList]
      rw [← h]
      exact ih

theorem get_last_prov_entry_append_str (l : List PEntry) (s : String) :
    get_last_prov_entry (PEntry.list (l ++ [PEntry.str s])) = some s := by
  simp only [get_last_prov_entry]
  exact glpeList_append_str l s

/-- Helper: `encE`, hence `pyStr`, is injective on well-formed values. -/
theorem encE_inj (e1 e2 : PEntry) (h1 : wfE e1 = true) (h2 : wfE e2 = true)
    (he : encE e1 = encE e2) : e1 = e2 := by
  have p1 := parseE_enc e1 (max (fuelE e1) (fuelE e2)) [] h1
    (le_max_left _ _)
  have p2 := parseE_enc e2 (max (fuelE e1) (fuelE e2)) [] h2
    (le_max_right _ _)
  rw [he, p2] at p1
  simpa using p1.symm

/-- Helper: lineage keys of well-formed chains identify the chain. -/
theorem pyStr_inj (c1 c2 : List PEntry) (h1 : wfL c1 = true)
    (h2 : wfL c2 = true) (he : pyStr c1 = pyStr c2) : c1 = c2 := by
  have hd : encE (PEntry.list c1) = encE (PEntry.list c2) :=
    congrArg String.data he
  have := encE_inj (PEntry.list c1) (PEntry.list c2)
    (by simpa [wfE] using h1) (by simpa [wfE] using h2) hd
  injection this

/-! ## Claim C5 -/
/-- **C5**: for every well-formed lineage chain (plain `name:producer`
strings or nested such lists, with a non-empty last step so that encoding
succeeds), decoding the encoded lineage key returns the chain:
`generate_prov_list (generate_prov_string c).2 = c`. -/
theorem prov_roundtrip (c : List PEntry) (hwf : wfL c = true)
    (r k : String) (hgen : generate_prov_string c = some (r, k)) :
    generate_prov_list k = some c := by
  have hk : k = pyStr c := by
    unfold generate_prov_string at hgen
    split at hgen
    · simp at hgen
    · injection hgen with hgen
      exact (congrArg Prod.snd hgen).symm
  subst hk
  have hwfE : wfE (PEntry.list c) = true := by simpa [wfE] using hwf
  have hb := fuelE_le_length (PEntry.list c)
  have hp := parseE_enc (PEntry.list c) ((encE (PEntry.list c)).length) []
    hwfE hb
  rw [List.append_nil] at hp
  unfold generate_prov_list
  have hdata : (pyStr c).data = encE (PEntry.list c) := rfl
  have hlen : (pyStr c).length = (encE (PEntry.list c)).length := rfl
  rw [hdata, hlen, hp]

/-- Witness: a two-step anatomical chain encodes and decodes back. -/
theorem prov_roundtrip_witness :
    generate_prov_list (pyStr [PEntry.str "T1w:ingress",
        PEntry.str "desc-preproc_T1w:anatomical_init"])
      = some [PEntry.str "T1w:ingress",
          PEntry.str "desc-preproc_T1w:anatomical_init"] :=
  prov_roundtrip
    [PEntry.str "T1w:ingress", PEntry.str "desc-preproc_T1w:anatomical_init"]
    (by decide) "desc-preproc_T1w"
    (pyStr [PEntry.str "T1w:ingress",
      PEntry.str "desc-preproc_T1w:anatomical_init"])
    (by decide)

/-! ## Error classification: every failure after line 194 is a plain
crash (`pyError`), never the re-raised `EmptyProvenance`. -/
theorem grfp_error {prov : List PEntry} {e : PyErr}
    (h : get_resource_from_prov prov = Except.error e) : e = PyErr.pyError := by
  unfold get_resource_from_prov at h
  split at h
  · simp at h
  · simp at h
  · split at h <;> simp_all

theorem grfpe_error {idx : PEntry} {e : PyErr}
    (h : get_resource_from_prov_entry idx = Except.error e) :
    e = PyErr.pyError := by
  cases idx with
  | str s =>
    simp only [get_resource_from_prov_entry] at h
    split at h <;> simp_all
  | list l =>
    simp only [get_resource_from_prov_entry] at h
    exact grfp_error h

theorem search_pipe_hit_error {idx : PEntry} {e : PyErr}
    (h : search_pipe_hit idx = Except.error e) : e = PyErr.pyError := by
  unfold search_pipe_hit at h
  split at h
  · split at h <;> simp_all
  · simp at h

theorem search_pipe_error {resource : String} :
    ∀ {l : List PEntry} {pi : String} {e : PyErr},
    search_pipe resource l pi = Except.error e → e = PyErr.pyError
  | [], pi, e, h => by simp [search_pipe] at h
  | idx :: rest, pi, e, h => by
    simp only [search_pipe] at h
    split at h
    · rename_i e2 heq
      injection h with h
      exact h ▸ grfpe_error heq
    · split at h
      · exact search_pipe_hit_error h
      · exact search_pipe_error h

theorem sdPrune_error {ν : Type} {st : PoolState ν}
    {resource : String} {cpl : List PEntry} {pi : String} {fork : Bool}
    {e : PyErr}
    (h : sdPrune st resource cpl pi fork = Except.error e) :
    e = PyErr.pyError := by
  unfold sdPrune at h
  split at h
  · simp at h
  · split at h
    · simp at h
    · split at h
      · rename_i e2 heq
        injection h with h
        exact h ▸ grfp_error heq
      · split at h
        · rename_i e2 heq
          injection h with h
          subst h
          split at heq
          · split at heq
            · injection heq with heq
              exact heq.symm
            · simp at heq
          · simp at heq
        · split at h
          · rename_i e2 heq
            injection h with h
            subst h
            split at heq
            · exact search_pipe_error heq
            · simp at heq
          · split at h <;> simp_all

theorem buildTags_error :
    ∀ {tags : List String} {acc : List (String × String)} {e : PyErr},
    buildTags tags acc = Except.error e → e = PyErr.pyError
  | [], acc, e, h => by simp [buildTags] at h
  | tag :: rest, acc, e, h => by
    simp only [buildTags] at h
    split at h
    · injection h with h
      exact h.symm
    · exact buildTags_error h

theorem parse_bids_tags_error {resource : String} {e : PyErr}
    (h : parse_bids_tags resource = Except.error e) : e = PyErr.pyError := by
  unfold parse_bids_tags at h
  split at h
  · rename_i e2 heq
    injection h with h
    exact h ▸ buildTags_error heq
  · simp at h

theorem rtableTags_error {resource : String} :
    ∀ {tags : List (String × String)}
    {tmap : List (String × List (String × List String))} {e : PyErr},
    rtableTags resource tags tmap = Except.error e → e = PyErr.pyError
  | [], tmap, e, h => by simp [rtableTags] at h
  | (tag, val) :: rest, tmap, e, h => by
    simp only [rtableTags] at h
    split at h
    · injection h with h
      exact h.symm
    · split at h
      · injection h with h
        exact h.symm
      · exact rtableTags_error h

theorem sdInsert_error {ν : Type} {st : PoolState ν} {resource : String}
    {node : ν} {output : String} {json_info : SDJson} {new_pipe_idx : String}
    {e : PyErr}
    (h : sdInsert st resource node output json_info new_pipe_idx
      = Except.error e) : e = PyErr.pyError := by
  unfold sdInsert at h
  split at h
  · rename_i e2 heq
    injection h with h
    exact h ▸ parse_bids_tags_error heq
  · split at h
    · rename_i e2 heq
      injection h with h
      exact h ▸ rtableTags_error heq
    · simp at h

/-! ## Success shapes of `set_data` -/
theorem dictSet_dictSet_same {κ α : Type} [DecidableEq κ]
    (d : List (κ × α)) (k : κ) (v w : α) :
    dictSet (dictSet d k v) k w = dictSet d k w := by
  induction d with
  | nil => simp [dictSet]
  | cons kv rest ih =>
    by_cases hh : kv.1 = k <;> simp [dictSet, hh, ih]

theorem sdInsStrats_eq {ν : Type} (strats : List (String × SDRec ν))
    (node : ν) (output : String) (json_info : SDJson) (K : String) :
    sdInsStrats strats node output json_info K
      = dictSet strats K
          { data := some (node, output), json := some json_info } := by
  by_cases h : dictMem strats K = true
  · simp [sdInsStrats, h]
  · simp [sdInsStrats, h, dictSet_dictSet_same]

theorem gps_none_iff (prov : List PEntry) :
    generate_prov_string prov = none ↔ glpeList prov = none := by
  unfold generate_prov_string
  simp only [get_last_prov_entry]
  cases glpeList prov <;> simp

theorem gps_some_key {prov : List PEntry} {rk : String × String}
    (h : generate_prov_string prov = some rk) : rk.2 = pyStr prov := by
  unfold generate_prov_string at h
  split at h
  · simp at h
  · injection h with h
    rw [← h]

theorem sdInsert_ok_rpool {ν : Type} {st : PoolState ν} {resource : String}
    {node : ν} {output : String} {json_info : SDJson} {K : String}
    {st2 : PoolState ν}
    (h : sdInsert st resource node output json_info K = Except.ok st2) :
    st2.rpool = dictSet st.rpool resource
      (dictSet ((dictGet st.rpool resource).getD []) K
        { data := some (node, output), json := some json_info }) := by
  unfold sdInsert at h
  split at h
  · simp at h
  · split at h
    · simp at h
    · injection h with h
      rw [← h]
      simp [sdInsStrats_eq]

theorem sdPrune_ok_shape {ν : Type} {st : PoolState ν} {resource : String}
    {cpl : List PEntry} {pi : String} {fork : Bool} {st1 : PoolState ν}
    (h : sdPrune st resource cpl pi fork = Except.ok st1) :
    ∃ strats1, dictGet st1.rpool resource = some strats1 ∧
      (strats1 = (dictGet st.rpool resource).getD [] ∨
       ∃ q, strats1 = dictDel ((dictGet st.rpool resource).getD []) q) := by
  unfold sdPrune at h
  split at h
  · rename_i heq
    injection h with h
    subst h
    exact ⟨[], by simp [dictGet_dictSet_self], Or.inl (by simp [heq])⟩
  · rename_i strats heq
    split at h
    · injection h with h
      subst h
      exact ⟨strats, by simp [heq], Or.inl (by simp [heq])⟩
    · split at h
      · simp at h
      · split at h
        · simp at h
        · split at h
          · simp at h
          · rename_i pi2 heq2
            split at h
            · injection h with h
              subst h
              refine ⟨dictDel strats pi2,
                by simp [dictGet_dictSet_self], Or.inr ⟨pi2, ?_⟩⟩
              simp [heq]
            · injection h with h
              subst h
              exact ⟨strats, by simp [heq], Or.inl (by simp [heq])⟩

theorem sdPrune_fork_present {ν : Type} {st : PoolState ν} {resource : String}
    {cpl : List PEntry} {pi : String} {st1 : PoolState ν}
    {strats : List (String × SDRec ν)}
    (hp : dictGet st.rpool resource = some strats)
    (h : sdPrune st resource cpl pi true = Except.ok st1) : st1 = st := by
  unfold sdPrune at h
  rw [hp] at h
  simp at h
  exact h.symm

/-- A successful `set_data` returns the caller's metadata untouched and
ends with the resource's strat dict holding, under the new lineage key,
the record built from the (copied and extended) metadata; everything else
of the strat dict is whatever `sdPrune` left. -/
theorem set_data_ok_parts {ν : Type} {st : PoolState ν} {resource : String}
    {node : ν} {output : String} {json_info : SDJson}
    {pipe_idx node_name : String} {fork inject : Bool}
    {st' : PoolState ν} {c : SDJson}
    (h : set_data st resource node output json_info pipe_idx node_name
      fork inject = Except.ok (st', c)) :
    c = json_info ∧
    ∃ st1, sdPrune st resource (json_info.CpacProvenance.getD [])
        pipe_idx fork = Except.ok st1 ∧
      st'.rpool = dictSet st1.rpool resource
        (dictSet ((dictGet st1.rpool resource).getD [])
          (sdNewKey json_info resource node_name inject)
          { data := some (node, output),
            json := some (sdStoredJson json_info resource
              (sdNewProvList json_info resource node_name inject)) }) := by
  unfold set_data at h
  split at h
  · simp at h
  · rename_i rk heq
    have hk : rk.2 = sdNewKey json_info resource node_name inject :=
      gps_some_key heq
    split at h
    · simp at h
    · rename_i st1 heq1
      split at h
      · simp at h
      · rename_i st2 heq2
        injection h with h
        have hst : st2 = st' := congrArg Prod.fst h
        have hc : json_info = c := congrArg Prod.snd h
        refine ⟨hc.symm, st1, heq1, ?_⟩
        rw [← hst, sdInsert_ok_rpool heq2, hk]

/-! ## Claim C6 -/
/-- **C6 counterexample**: the claim says `set_data` raises
`EmptyProvenance` iff the metadata has no `CpacProvenance` and `inject`
is false, and "in particular an injection with empty ancestry does not
raise".  The code does the opposite (engine.py:187-194): an injection
with empty ancestry raises, while a non-injection with empty ancestry
appends `"resource:node_name"` first and succeeds. -/
theorem set_data_empty_prov_claim_false :
    set_data (ν := Unit) ⟨[], [], []⟩ "desc-preproc_T1w" () "out"
      ⟨none, none, []⟩ "p" "stageA" false true
      = Except.error PyErr.emptyProvenance ∧
    (set_data (ν := Unit) ⟨[], [], []⟩ "desc-preproc_T1w" () "out"
      ⟨none, none, []⟩ "p" "stageA" false false).isOk = true :=
  ⟨by decide, by decide⟩

/-- **C6 (amended)**: `set_data` raises `EmptyProvenance` if and only if
`inject` is true and the metadata's provenance (empty when the metadata
carries no `CpacProvenance`) has no terminal entry; with `inject=false`
the freshly appended `"resource:node_name"` step makes the chain
non-empty, so the error is never raised. -/
theorem set_data_emptyProv_iff {ν : Type} (st : PoolState ν)
    (resource : String) (node : ν) (output : String) (json_info : SDJson)
    (pipe_idx node_name : String) (fork inject : Bool) :
    set_data st resource node output json_info pipe_idx node_name fork inject
      = Except.error PyErr.emptyProvenance
    ↔ inject = true ∧
      glpeList (json_info.CpacProvenance.getD []) = none := by
  unfold set_data
  cases hg : generate_prov_string
      (sdNewProvList json_info resource node_name inject) with
  | none =>
    simp only
    constructor
    · intro _
      cases hinj : inject with
      | false =>
        exfalso
        rw [gps_none_iff, hinj] at hg
        simp [sdNewProvList, glpeList_append_str] at hg
      | true =>
        refine ⟨rfl, ?_⟩
        rw [gps_none_iff, hinj] at hg
        simpa [sdNewProvList] using hg
    · intro _
      trivial
  | some rk =>
    simp only
    constructor
    · intro h
      exfalso
      split at h
      · rename_i e2 heq
        injection h with h
        have h2 := sdPrune_error heq
        rw [h] at h2
        exact PyErr.noConfusion h2
      · split at h
        · rename_i e2 heq
          injection h with h
          have h2 := sdInsert_error heq
          rw [h] at h2
          exact PyErr.noConfusion h2
        · simp at h
    · rintro ⟨hinj, hnone⟩
      exfalso
      rw [hinj] at hg
      have : generate_prov_string
          (sdNewProvList json_info resource node_name true) = none := by
        rw [gps_none_iff]
        simpa [sdNewProvList] using hnone
      rw [this] at hg
      exact Option.noConfusion hg

/-! ## Claim C3 -/
/-- Helper: in an association list with distinct keys, a present key has
exactly one binding. -/
theorem filter_key_length_one {κ α : Type} [DecidableEq κ]
    (d : List (κ × α)) (k : κ) (hnd : (d.map Prod.fst).Nodup)
    (hm : k ∈ d.map Prod.fst) :
    (d.filter (fun kv => kv.1 = k)).length = 1 := by
  induction d with
  | nil => simp at hm
  | cons kv rest ih =>
    simp only [List.map_cons, List.nodup_cons] at hnd
    by_cases hh : kv.1 = k
    · have : rest.filter (fun kv => kv.1 = k) = [] := by
        apply List.filter_eq_nil_iff.mpr
        intro a ha
        simp only [decide_eq_true_eq]
        intro hak
        exact hnd.1 (hh ▸ hak ▸ List.mem_map_of_mem Prod.fst ha)
      simp [List.filter_cons, hh, this]
    · simp only [List.map_cons, List.mem_cons] at hm
      rcases hm with hm | hm
      · exact absurd hm.symm hh
      · simp [List.filter_cons, hh, ih hnd.2 hm]

theorem dictSet_map_fst_incl {κ α : Type} [DecidableEq κ]
    (d : List (κ × α)) (k : κ) (v : α) :
    ∀ k', k' ∈ d.map Prod.fst → k' ∈ (dictSet d k v).map Prod.fst := by
  intro k' h
  by_cases hm : k ∈ d.map Prod.fst
  · rwa [dictSet_map_fst_mem d k v hm]
  · rw [dictSet_map_fst_notMem d k v hm]
    simp [h]

theorem dictDel_self_notMem {κ α : Type} [DecidableEq κ]
    (d : List (κ × α)) (k : κ) (hnd : (d.map Prod.fst).Nodup) :
    k ∉ (dictDel d k).map Prod.fst := by
  induction d with
  | nil => simp [dictDel]
  | cons kv rest ih =>
    simp only [List.map_cons, List.nodup_cons] at hnd
    by_cases hh : kv.1 = k
    · simp only [dictDel, hh, if_true]
      rw [← hh]
      exact hnd.1
    · simp only [dictDel, hh, if_false, List.map_cons, List.mem_cons]
      rintro (hc | hc)
      · exact hh hc.symm
      · exact ih hnd.2 hc

/-- **C3**: inserting a value for resource `R` with the same metadata
(provenance `p`), the same producing node name and `fork=false` twice in
succession leaves exactly one entry for `R` under the resulting lineage
key, and the entry count for `R` does not grow on the second insert. -/
theorem set_data_nonfork_idem {ν : Type} (st : PoolState ν)
    (resource : String) (node : ν) (output : String) (json_info : SDJson)
    (pipe_idx node_name : String) (st1 st2 : PoolState ν) (c1 c2 : SDJson)
    (hnd : (((dictGet st.rpool resource).getD []).map Prod.fst).Nodup)
    (h1 : set_data st resource node output json_info pipe_idx node_name
      false false = Except.ok (st1, c1))
    (h2 : set_data st1 resource node output json_info pipe_idx node_name
      false false = Except.ok (st2, c2)) :
    (((dictGet st2.rpool resource).getD []).filter
        (fun kv => kv.1 = sdNewKey json_info resource node_name false)).length
      = 1 ∧
    ((dictGet st2.rpool resource).getD []).length
      ≤ ((dictGet st1.rpool resource).getD []).length := by
  obtain ⟨-, sa, hpa, hra⟩ := set_data_ok_parts h1
  obtain ⟨-, sb, hpb, hrb⟩ := set_data_ok_parts h2
  obtain ⟨strats1, hs1, hbase1⟩ := sdPrune_ok_shape hpa
  obtain ⟨strats2, hs2, hbase2⟩ := sdPrune_ok_shape hpb
  set K := sdNewKey json_info resource node_name false with hK
  set rec : SDRec ν :=
    { data := some (node, output),
      json := some (sdStoredJson json_info resource
        (sdNewProvList json_info resource node_name false)) } with hrec
  -- the strat dict after the first call
  have hd1 : (dictGet st1.rpool resource).getD [] = dictSet strats1 K rec := by
    rw [hra, dictGet_dictSet_self]
    simp [hs1]
  -- the strat dict after the second call
  have hd2 : (dictGet st2.rpool resource).getD [] = dictSet strats2 K rec := by
    rw [hrb, dictGet_dictSet_self]
    simp [hs2]
  -- distinct keys after the first call
  have hnds1 : ((dictSet strats1 K rec).map Prod.fst).Nodup := by
    apply dictSet_nodup
    rcases hbase1 with h | ⟨q, h⟩
    · rw [h]; exact hnd
    · rw [h]; exact dictDel_nodup _ _ hnd
  -- the second prune started from the post-first-call dict
  rw [hd1] at hbase2
  -- distinct keys of the second call's base
  have hnd2 : (strats2.map Prod.fst).Nodup := by
    rcases hbase2 with h | ⟨q, h⟩
    · rw [h]; exact hnds1
    · rw [h]; exact dictDel_nodup _ _ hnds1
  have hK1 : K ∈ (dictSet strats1 K rec).map Prod.fst :=
    dictGet_mem_keys _ _ _ (dictGet_dictSet_self strats1 K rec)
  constructor
  · -- exactly one binding of K after the second insert
    rw [hd2]
    apply filter_key_length_one
    · exact dictSet_nodup _ _ _ hnd2
    · exact dictGet_mem_keys _ _ _ (dictGet_dictSet_self strats2 K rec)
  · -- no growth
    rw [hd1, hd2]
    rcases hbase2 with h | ⟨q, h⟩
    · -- second prune deleted nothing: the new key is already present
      subst h
      exact Nat.le_of_eq (dictSet_length_mem _ _ _ hK1)
    · -- second prune deleted key q from the post-first-call dict
      subst h
      by_cases hqK : q = K
      · -- delete the new key itself, then re-add: net unchanged
        subst hqK
        have hnotm := dictDel_self_notMem (dictSet strats1 K rec) K hnds1
        rw [dictSet_length_notMem _ _ _ hnotm]
        rw [dictDel_length_mem _ _ hK1]
      · -- delete some other key: the new key survives, count shrinks
        have hsurv : dictGet (dictDel (dictSet strats1 K rec) q) K
            = some rec := by
          rw [dictGet_dictDel_ne _ _ _ hqK hnds1]
          exact dictGet_dictSet_self _ _ _
        rw [dictSet_length_mem _ _ _ (dictGet_mem_keys _ _ _ hsurv)]
        calc (dictDel (dictSet strats1 K rec) q).length
            ≤ (dictSet strats1 K rec).length := dictDel_length_le _ _

/-! ## Claim C4 -/
/-- **C4**: a forking insert (`fork=true`) leaves a pre-existing entry of
the resource at its lineage key `k0` unchanged and present, adds the new
record alongside it under the newly derived lineage key, and deletes no
entry of the resource (every old key survives). -/
theorem set_data_fork_preserves {ν : Type} (st : PoolState ν)
    (resource : String) (node : ν) (output : String) (json_info : SDJson)
    (pipe_idx node_name : String) (st' : PoolState ν) (c : SDJson)
    (k0 : String) (rec0 : SDRec ν) (strats : List (String × SDRec ν))
    (hp : dictGet st.rpool resource = some strats)
    (hk0 : dictGet strats k0 = some rec0)
    (hne : sdNewKey json_info resource node_name false ≠ k0)
    (h : set_data st resource node output json_info pipe_idx node_name
      true false = Except.ok (st', c)) :
    dictGet ((dictGet st'.rpool resource).getD []) k0 = some rec0 ∧
    dictGet ((dictGet st'.rpool resource).getD [])
        (sdNewKey json_info resource node_name false)
      = some { data := some (node, output),
               json := some (sdStoredJson json_info resource
                 (sdNewProvList json_info resource node_name false)) } ∧
    ∀ k ∈ strats.map Prod.fst,
      k ∈ ((dictGet st'.rpool resource).getD []).map Prod.fst := by
  obtain ⟨-, s1, hp1, hr⟩ := set_data_ok_parts h
  have hs1 : s1 = st := sdPrune_fork_present hp hp1
  subst hs1
  have hd : (dictGet st'.rpool resource).getD []
      = dictSet strats (sdNewKey json_info resource node_name false)
          { data := some (node, output),
            json := some (sdStoredJson json_info resource
              (sdNewProvList json_info resource node_name false)) } := by
    rw [hr, dictGet_dictSet_self]
    simp [hp]
  rw [hd]
  refine ⟨?_, dictGet_dictSet_self _ _ _, ?_⟩
  · rw [dictGet_dictSet_ne _ _ _ _ hne]
    exact hk0
  · exact fun k hk => dictSet_map_fst_incl _ _ _ k hk

/-! ## Claim C10 -/
/-- **C10**: `set_data` operates on a copy of the caller's metadata
mapping (engine.py:181): on success the mapping handed back alongside the
state is exactly the caller's input, while the appended provenance entry
and the `CpacProvenance` key appear in the stored record's metadata
only. -/
theorem set_data_caller_unchanged {ν : Type} (st : PoolState ν)
    (resource : String) (node : ν) (output : String) (json_info : SDJson)
    (pipe_idx node_name : String) (fork inject : Bool)
    (st' : PoolState ν) (c : SDJson)
    (h : set_data st resource node output json_info pipe_idx node_name
      fork inject = Except.ok (st', c)) :
    c = json_info ∧
    dictGet ((dictGet st'.rpool resource).getD [])
        (sdNewKey json_info resource node_name inject)
      = some { data := some (node, output),
               json := some (sdStoredJson json_info resource
                 (sdNewProvList json_info resource node_name inject)) } ∧
    (sdStoredJson json_info resource
        (sdNewProvList json_info resource node_name inject)).CpacProvenance
      = some (sdNewProvList json_info resource node_name inject) := by
  obtain ⟨hc, s1, hp1, hr⟩ := set_data_ok_parts h
  refine ⟨hc, ?_, rfl⟩
  rw [hr, dictGet_dictSet_self]
  simp [dictGet_dictSet_self]

/-! ## Claim C9 -/
/-- **C9**: `get` on a list of alternative resource names returns the
record of the first name (in list order) present in the pool; when none
is present it returns the `None` sentinel if `optional`, and raises
`ResourceNotFound` otherwise. -/
theorem get_alternatives_first {α : Type} (rpool : List (String × α))
    (resource : List String) (optional : Bool) :
    get_alternatives rpool resource optional
      = match resource.find? (fun l => (dictGet rpool l).isSome) with
        | some l => Except.ok (dictGet rpool l)
        | none => if optional then Except.ok none
                  else Except.error PyErr.resourceNotFound := by
  induction resource with
  | nil => rfl
  | cons label rest ih =>
    unfold get_alternatives at ih ⊢
    cases hd : dictGet rpool label with
    | some v =>
      simp [rp_get_first, hd, List.find?]
    | none =>
      simp only [rp_get_first, hd, List.find?_cons, Option.isSome_none]
      simpa [hd] using ih

theorem set_data_nonfork_idem_witness :
    (((dictGet demoStep2.rpool "desc-preproc_T1w").getD []).filter
        (fun kv => kv.1 = sdNewKey demoJson "desc-preproc_T1w" "stageA"
          false)).length = 1 ∧
    ((dictGet demoStep2.rpool "desc-preproc_T1w").getD []).length
      ≤ ((dictGet demoStep1.rpool "desc-preproc_T1w").getD []).length :=
  set_data_nonfork_idem ⟨[], [], []⟩ "desc-preproc_T1w" () "out" demoJson
    "p" "stageA" demoStep1 demoStep2 demoJson demoJson (by decide)
    (by decide) (by decide)

theorem set_data_fork_preserves_witness :
    dictGet ((dictGet demoForkStep.rpool "desc-preproc_T1w").getD []) "k0"
      = some { data := some ((), "o0"), json := some demoJson } ∧
    dictGet ((dictGet demoForkStep.rpool "desc-preproc_T1w").getD [])
        (sdNewKey demoJson "desc-preproc_T1w" "stageA" false)
      = some { data := some ((), "out"),
               json := some (sdStoredJson demoJson "desc-preproc_T1w"
                 (sdNewProvList demoJson "desc-preproc_T1w" "stageA"
                   false)) } ∧
    ∀ k ∈ [("k0",
        ({ data := some ((), "o0"), json := some demoJson } : SDRec Unit))].map
        Prod.fst,
      k ∈ ((dictGet demoForkStep.rpool "desc-preproc_T1w").getD []).map
        Prod.fst :=
  set_data_fork_preserves demoPoolK0 "desc-preproc_T1w" () "out" demoJson
    "p" "stageA" demoForkStep demoJson "k0"
    { data := some ((), "o0"), json := some demoJson }
    [("k0", { data := some ((), "o0"), json := some demoJson })]
    (by decide) (by decide) (by decide) (by decide)

theorem set_data_caller_unchanged_witness :
    demoJson = demoJson ∧
    dictGet ((dictGet demoStep1.rpool "desc-preproc_T1w").getD [])
        (sdNewKey demoJson "desc-preproc_T1w" "stageA" false)
      = some { data := some ((), "out"),
               json := some (sdStoredJson demoJson "desc-preproc_T1w"
                 (sdNewProvList demoJson "desc-preproc_T1w" "stageA"
                   false)) } ∧
    (sdStoredJson demoJson "desc-preproc_T1w"
        (sdNewProvList demoJson "desc-preproc_T1w" "stageA"
          false)).CpacProvenance
      = some (sdNewProvList demoJson "desc-preproc_T1w" "stageA" false) :=
  set_data_caller_unchanged ⟨[], [], []⟩ "desc-preproc_T1w" () "out"
    demoJson "p" "stageA" false false demoStep1 demoJson (by decide)

/-! ## Lemmas about the `get_strats` phases -/
theorem phase1_singles (pool : GPool) :
    ∀ names : List String,
    phase1 pool (names.map RSpec.single) = ([], names.map RItem.name)
  | [] => rfl
  | n :: rest => by
    simp only [List.map_cons, phase1, phase1_singles pool rest]

theorem addVariants_ok :
    ∀ (vm : List (String × List String)) (vp : List String),
    (∀ kv ∈ vm, kv.2 ≠ []) → ∃ nv, addVariants vm vp = Except.ok nv
  | [], vp, _ => ⟨vp, rfl⟩
  | kv :: rest, vp, h => by
    cases hv : kv.2 with
    | nil => exact absurd hv (h kv (by simp))
    | cons a t =>
      obtain ⟨nv, hnv⟩ := addVariants_ok rest (vp ++ (a :: t) ++ ["NO-" ++ a])
        (fun kv2 h2 => h kv2 (by simp [h2]))
      refine ⟨nv, ?_⟩
      simp only [addVariants, hv]
      simpa [List.append_assoc] using hnv

theorem scanStrats_ok (fetched : String) :
    ∀ (sl : List (String × GJson)) (sp : List (List PEntry))
    (vp : List (String × List String)),
    (∀ kj ∈ sl, gVariantOk kj.2 = true) →
    ∃ vp', scanStrats fetched sl sp vp
      = Except.ok (sp ++ sl.map (fun kj => kj.2.CpacProvenance), vp')
  | [], sp, vp, _ => ⟨vp, by simp [scanStrats]⟩
  | kj :: rest, sp, vp, h => by
    have hrest : ∀ kj2 ∈ rest, gVariantOk kj2.2 = true :=
      fun kj2 h2 => h kj2 (by simp [h2])
    cases hv : kj.2.CpacVariant with
    | none =>
      obtain ⟨vp', hvp'⟩ := scanStrats_ok fetched rest
        (sp ++ [kj.2.CpacProvenance])
        (if dictMem vp fetched then vp else dictSet vp fetched []) hrest
      exact ⟨vp', by simp [scanStrats, hv, hvp']⟩
    | some vm =>
      have hvm : ∀ kv ∈ vm, kv.2 ≠ [] := by
        have := h kj (by simp)
        simp only [gVariantOk, hv, List.all_eq_true] at this
        intro kv hkv
        have h2 := this kv hkv
        simpa using h2
      obtain ⟨nv, hnv⟩ := addVariants_ok vm
        ((dictGet (if dictMem vp fetched then vp
                   else dictSet vp fetched []) fetched).getD []) hvm
      obtain ⟨vp', hvp'⟩ := scanStrats_ok fetched rest
        (sp ++ [kj.2.CpacProvenance])
        (dictSet (if dictMem vp fetched then vp
                  else dictSet vp fetched []) fetched nv) hrest
      exact ⟨vp', by simp [scanStrats, hv, hnv, hvp']⟩

theorem scanAll_names (pool : GPool) :
    ∀ (names : List String) (st : ScanSt),
    (∀ n ∈ names, ∃ sl, dictGet pool n = some sl ∧ sl ≠ [] ∧
      (∀ kj ∈ sl, gVariantOk kj.2 = true)) →
    ∃ vp', scanAll pool (names.map RItem.name) st
      = Except.ok { len_inputs := st.len_inputs,
                    total_pool := st.total_pool ++ names.map (provsOf pool),
                    variant_pool := vp' }
  | [], st, _ => ⟨st.variant_pool, by simp [scanAll]⟩
  | n :: rest, st, h => by
    obtain ⟨sl, hsl, hne, hvar⟩ := h n (by simp)
    obtain ⟨vp1, hvp1⟩ := scanStrats_ok n sl [] st.variant_pool hvar
    obtain ⟨vp', hvp'⟩ := scanAll_names pool rest
      { len_inputs := st.len_inputs,
        total_pool := st.total_pool ++ [sl.map (fun kj => kj.2.CpacProvenance)],
        variant_pool := vp1 }
      (fun n2 h2 => h n2 (by simp [h2]))
    refine ⟨vp', ?_⟩
    have hempty : sl.isEmpty = false := by
      cases sl
      · simp at hne
      · rfl
    simp only [List.map_cons, scanAll, scanOne, fetchItem, hsl, hempty,
      Bool.false_eq_true, if_false, hvp1]
    have hprovs : provsOf pool n = sl.map (fun kj => kj.2.CpacProvenance) := by
      simp [provsOf, hsl]
    rw [hprovs]
    simpa [List.append_assoc] using hvp'

theorem sum_map_const {α : Type} :
    ∀ (l : List α) (n : Nat), (l.map (fun _ => n)).sum = l.length * n
  | [], n => by simp
  | a :: rest, n => by
    simp [sum_map_const rest n, Nat.succ_mul, Nat.add_comm]

theorem pyProduct_length {α : Type} :
    ∀ ls : List (List α), (pyProduct ls).length = (ls.map List.length).prod
  | [] => by simp [pyProduct]
  | l :: rest => by
    simp only [pyProduct, List.length_flatten, List.map_map,
      Function.comp_def, List.length_map, List.map_cons, List.prod_cons]
    rw [sum_map_const l (pyProduct rest).length, pyProduct_length rest]

theorem pyProduct_mem_coords {α : Type} :
    ∀ (ls : List (List α)) (c : List α), c ∈ pyProduct ls →
    ∀ x ∈ c, ∃ l ∈ ls, x ∈ l
  | [], c, hc, x, hx => by
    simp [pyProduct] at hc
    subst hc
    simp at hx
  | l :: rest, c, hc, x, hx => by
    simp only [pyProduct, List.mem_flatten, List.mem_map] at hc
    obtain ⟨s, ⟨a, ha, hs⟩, hcs⟩ := hc
    subst hs
    simp only [List.mem_map] at hcs
    obtain ⟨t, ht, hct⟩ := hcs
    subst hct
    rcases List.mem_cons.mp hx with hx | hx
    · exact ⟨l, by simp, hx ▸ ha⟩
    · obtain ⟨l2, hl2, hxl2⟩ := pyProduct_mem_coords rest t ht x hx
      exact ⟨l2, by simp [hl2], hxl2⟩

theorem pyProduct_nodup {α : Type} :
    ∀ ls : List (List α), (∀ l ∈ ls, l.Nodup) → (pyProduct ls).Nodup
  | [], _ => by simp [pyProduct]
  | l :: rest, h => by
    simp only [pyProduct]
    rw [List.nodup_flatten]
    constructor
    · intro s hs
      simp only [List.mem_map] at hs
      obtain ⟨a, _, hs⟩ := hs
      subst hs
      exact (pyProduct_nodup rest
        (fun l2 h2 => h l2 (by simp [h2]))).map
        (fun t1 t2 ht => by
          injection ht with hh ht2)
    · have hl : l.Nodup := h l (by simp)
      apply List.Pairwise.map
        (R := fun a b : α => a ≠ b)
      · intro a b hab
        intro s hs1 hs2
        simp only [List.mem_map] at hs1 hs2
        obtain ⟨t1, _, h1⟩ := hs1
        obtain ⟨t2, _, h2⟩ := hs2
        rw [← h1] at h2
        injection h2 with hba ht
        exact hab hba.symm
      · exact hl

theorem wfL_map_list :
    ∀ c : List (List PEntry), (∀ x ∈ c, wfL x = true) →
    wfL (c.map PEntry.list) = true
  | [], _ => rfl
  | x :: rest, h => by
    simp only [List.map_cons, wfL, wfE, Bool.and_eq_true]
    exact ⟨h x (by simp), wfL_map_list rest (fun y hy => h y (by simp [hy]))⟩

theorem pyStrLL_inj {c1 c2 : List (List PEntry)}
    (h1 : ∀ x ∈ c1, wfL x = true) (h2 : ∀ x ∈ c2, wfL x = true)
    (he : pyStrLL c1 = pyStrLL c2) : c1 = c2 := by
  have := pyStr_inj (c1.map PEntry.list) (c2.map PEntry.list)
    (wfL_map_list c1 h1) (wfL_map_list c2 h2) he
  exact List.map_injective_iff.mpr (fun a b hab => by injection hab) this

theorem nodup_keys_elem_eq {κ α : Type} {d : List (κ × α)}
    (hnd : (d.map Prod.fst).Nodup) {kv1 kv2 : κ × α}
    (h1 : kv1 ∈ d) (h2 : kv2 ∈ d) (hk : kv1.1 = kv2.1) : kv1 = kv2 := by
  induction d with
  | nil => simp at h1
  | cons hd rest ih =>
    simp only [List.map_cons, List.nodup_cons] at hnd
    rcases List.mem_cons.mp h1 with h1 | h1 <;>
      rcases List.mem_cons.mp h2 with h2 | h2
    · rw [h1, h2]
    · exfalso
      apply hnd.1
      have hmem : kv2.1 ∈ rest.map Prod.fst := List.mem_map_of_mem Prod.fst h2
      rwa [← hk, h1] at hmem
    · exfalso
      apply hnd.1
      have hmem : kv1.1 ∈ rest.map Prod.fst := List.mem_map_of_mem Prod.fst h1
      rwa [hk, h2] at hmem
    · exact ih hnd.2 h1 h2

theorem provsOf_nodup {pool : GPool} (hcoh : Coherent pool) {r : String}
    {sl : List (String × GJson)} (hsl : dictGet pool r = some sl) :
    (sl.map (fun kj => kj.2.CpacProvenance)).Nodup := by
  obtain ⟨hnd, hrs⟩ := hcoh
  obtain ⟨hknd, hrec⟩ := hrs (r, sl) (dictGet_mem _ _ _ hsl)
  apply List.Nodup.map_on
  · intro kj1 hkj1 kj2 hkj2 hpe
    have g1 := (hrec kj1 hkj1).1
    have g2 := (hrec kj2 hkj2).1
    rw [hpe, g2] at g1
    have : kj2.1 = kj1.1 := congrArg Prod.snd (Option.some.inj g1)
    exact nodup_keys_elem_eq hknd hkj1 hkj2 this.symm
  · -- the record list itself has no duplicate pairs
    exact List.Nodup.of_map Prod.fst hknd

theorem dedupByStrAux_noop :
    ∀ (ls : List (List (List PEntry))) (seen : List String),
    (ls.map pyStrLL).Nodup → (∀ c ∈ ls, pyStrLL c ∉ seen) →
    dedupByStrAux ls seen = ls
  | [], _, _, _ => rfl
  | c :: rest, seen, hnd, hseen => by
    simp only [List.map_cons, List.nodup_cons] at hnd
    have hc : pyStrLL c ∉ seen := hseen c (by simp)
    simp only [dedupByStrAux, hc, if_false]
    rw [dedupByStrAux_noop rest (seen ++ [pyStrLL c]) hnd.2]
    intro c2 hc2
    simp only [List.mem_append, List.mem_singleton]
    rintro (hs | hs)
    · exact hseen c2 (by simp [hc2]) hs
    · exact hnd.1 (hs ▸ List.mem_map_of_mem pyStrLL hc2)

theorem dedup_noop (ls : List (List (List PEntry)))
    (hnd : (ls.map pyStrLL).Nodup) : dedupByStr ls = ls :=
  dedupByStrAux_noop ls [] hnd (by simp)

theorem buildJsonDct_ok (pool : GPool) :
    ∀ (combo : List (List PEntry)) (acc : List (String × GJson)),
    (∀ x ∈ combo, ∃ rk sl, generate_prov_string x = some rk ∧
      dictGet pool rk.1 = some sl ∧ (dictGet sl rk.2).isSome) →
    ∃ jd, buildJsonDct pool combo acc = Except.ok jd
  | [], acc, _ => ⟨acc, rfl⟩
  | x :: rest, acc, h => by
    obtain ⟨rk, sl, hg, hp, hj⟩ := h x (by simp)
    obtain ⟨j, hj2⟩ := Option.isSome_iff_exists.mp hj
    obtain ⟨jd, hjd⟩ := buildJsonDct_ok pool rest (dictSet acc rk.1 j)
      (fun y hy => h y (by simp [hy]))
    exact ⟨jd, by simp [buildJsonDct, hg, hp, hj2, hjd]⟩

theorem comboValue_ok (pool : GPool) :
    ∀ combo : List (List PEntry),
    (∀ x ∈ combo, ∃ rk sl, generate_prov_string x = some rk ∧
      dictGet pool rk.1 = some sl ∧ (dictGet sl rk.2).isSome) →
    ∃ v, comboValue pool combo = Except.ok v
  | [], _ => ⟨[], rfl⟩
  | x :: rest, h => by
    obtain ⟨rk, sl, hg, hp, hj⟩ := h x (by simp)
    obtain ⟨j, hj2⟩ := Option.isSome_iff_exists.mp hj
    obtain ⟨v, hv⟩ := comboValue_ok pool rest (fun y hy => h y (by simp [hy]))
    exact ⟨(rk.1, rk.2) :: v, by simp [comboValue, hg, hp, hj2, hv]⟩

/-- A provenance drawn from a pool record can be re-resolved: its
`generate_prov_string` names its resource and key, both present. -/
theorem coord_ok {pool : GPool} (hcoh : Coherent pool) {r : String}
    {sl : List (String × GJson)} (hsl : dictGet pool r = some sl)
    {x : List PEntry} (hx : x ∈ sl.map (fun kj => kj.2.CpacProvenance)) :
    ∃ rk sl2, generate_prov_string x = some rk ∧
      dictGet pool rk.1 = some sl2 ∧ (dictGet sl2 rk.2).isSome ∧
      wfL x = true := by
  obtain ⟨kj, hkj, hxe⟩ := List.mem_map.mp hx
  obtain ⟨hnd, hrs⟩ := hcoh
  obtain ⟨hknd, hrec⟩ := hrs (r, sl) (dictGet_mem _ _ _ hsl)
  obtain ⟨hg, hwf, hvar⟩ := hrec kj hkj
  subst hxe
  refine ⟨(r, kj.1), sl, hg, hsl, ?_, hwf⟩
  rw [dictGet_of_mem_nodup sl kj hkj hknd]
  rfl

theorem processCombos_nolinked (pool : GPool)
    (vp : List (String × List String)) :
    ∀ (combos : List (List (List PEntry))) (acc : GStrats),
    (∀ c ∈ combos, (∃ jd, buildJsonDct pool c [] = Except.ok jd) ∧
      ∃ v, comboValue pool c = Except.ok v) →
    (combos.map pyStrLL).Nodup →
    (∀ c ∈ combos, pyStrLL c ∉ acc.map Prod.fst) →
    ∃ ns, processCombos pool [] vp combos acc = Except.ok ns ∧
      ns.map Prod.fst = acc.map Prod.fst ++ combos.map pyStrLL
  | [], acc, _, _, _ => ⟨acc, rfl, by simp⟩
  | c :: rest, acc, h, hnd, hfresh => by
    obtain ⟨⟨jd, hjd⟩, v, hv⟩ := h c (by simp)
    simp only [List.map_cons, List.nodup_cons] at hnd
    have hck : pyStrLL c ∉ acc.map Prod.fst := hfresh c (by simp)
    have hfresh2 : ∀ c2 ∈ rest,
        pyStrLL c2 ∉ (dictSet acc (pyStrLL c) v).map Prod.fst := by
      intro c2 h2
      rw [dictSet_map_fst_notMem acc _ v hck]
      simp only [List.mem_append, List.mem_singleton]
      rintro (hs | hs)
      · exact hfresh c2 (by simp [h2]) hs
      · exact hnd.1 (hs ▸ List.mem_map_of_mem pyStrLL h2)
    obtain ⟨ns, hns, hkeys⟩ := processCombos_nolinked pool vp rest
      (dictSet acc (pyStrLL c) v) (fun c2 h2 => h c2 (by simp [h2]))
      hnd.2 hfresh2
    refine ⟨ns, ?_, ?_⟩
    · simp [processCombos, hjd, groupLoop, hv, hns]
    · rw [hkeys, dictSet_map_fst_notMem acc _ v hck]
      simp

/-! ## Claim C2 -/
/-- **C2**: with `k ≥ 2` present, independent, non-linked inputs over a
coherent pool (pairwise-distinct lineage keys per input) and no linked
groups, `get_strats` returns exactly `n1 * … * nk` sub-pools — one per
element of the cross product of the inputs' lineage sets, keyed by the
merged string of each choice. -/
theorem get_strats_cross_product (pool : GPool) (names : List String)
    (hcoh : Coherent pool)
    (hpres : ∀ n ∈ names, rp_truthy pool n = true)
    (hk : 2 ≤ names.length) :
    ∃ ns, get_strats pool (names.map RSpec.single) = Except.ok ns ∧
      ns.map Prod.fst = (pyProduct (names.map (provsOf pool))).map pyStrLL ∧
      ns.length = (names.map (fun n => (provsOf pool n).length)).prod := by
  have hpres2 : ∀ n ∈ names, ∃ sl, dictGet pool n = some sl ∧ sl ≠ [] ∧
      (∀ kj ∈ sl, gVariantOk kj.2 = true) := by
    intro n hn
    have ht := hpres n hn
    unfold rp_truthy at ht
    cases hsl : dictGet pool n with
    | none => rw [hsl] at ht; simp at ht
    | some sl =>
      rw [hsl] at ht
      refine ⟨sl, rfl, ?_, ?_⟩
      · intro he
        subst he
        simp at ht
      · intro kj hkj
        obtain ⟨-, hrs⟩ := hcoh
        obtain ⟨-, hrec⟩ := hrs (n, sl) (dictGet_mem _ _ _ hsl)
        exact (hrec kj hkj).2.2
  -- run the scan
  obtain ⟨vp', hscan⟩ := scanAll_names pool names
    { len_inputs := (names.map RItem.name).length, total_pool := [],
      variant_pool := [] } hpres2
  -- provenance lists of each input, as the scan collected them
  have hprovs_eq : ∀ n ∈ names, ∀ sl, dictGet pool n = some sl →
      provsOf pool n = sl.map (fun kj => kj.2.CpacProvenance) := by
    intro n _ sl hsl
    simp [provsOf, hsl]
  -- well-formedness of every product coordinate
  have hwfco : ∀ c ∈ pyProduct (names.map (provsOf pool)),
      ∀ x ∈ c, wfL x = true := by
    intro c hc x hx
    obtain ⟨l, hl, hxl⟩ := pyProduct_mem_coords _ c hc x hx
    obtain ⟨n, hn, hln⟩ := List.mem_map.mp hl
    obtain ⟨sl, hsl, -, -⟩ := hpres2 n hn
    rw [← hln, hprovs_eq n hn sl hsl] at hxl
    obtain ⟨-, -, -, -, -, hwf⟩ := coord_ok hcoh hsl hxl
    exact hwf
  -- coordinates resolve in the pool
  have hcoord : ∀ c ∈ pyProduct (names.map (provsOf pool)),
      ∀ x ∈ c, ∃ rk sl2, generate_prov_string x = some rk ∧
        dictGet pool rk.1 = some sl2 ∧ (dictGet sl2 rk.2).isSome := by
    intro c hc x hx
    obtain ⟨l, hl, hxl⟩ := pyProduct_mem_coords _ c hc x hx
    obtain ⟨n, hn, hln⟩ := List.mem_map.mp hl
    obtain ⟨sl, hsl, -, -⟩ := hpres2 n hn
    rw [← hln, hprovs_eq n hn sl hsl] at hxl
    obtain ⟨rk, sl2, hg, hp2, hj, -⟩ := coord_ok hcoh hsl hxl
    exact ⟨rk, sl2, hg, hp2, hj⟩
  -- the product's keys are pairwise distinct
  have hpnodup : (pyProduct (names.map (provsOf pool))).Nodup := by
    apply pyProduct_nodup
    intro l hl
    obtain ⟨n, hn, hln⟩ := List.mem_map.mp hl
    obtain ⟨sl, hsl, -, -⟩ := hpres2 n hn
    rw [← hln, hprovs_eq n hn sl hsl]
    exact provsOf_nodup hcoh hsl
  have hknodup : ((pyProduct (names.map (provsOf pool))).map pyStrLL).Nodup := by
    apply List.Nodup.map_on _ hpnodup
    intro c1 h1 c2 h2 he
    exact pyStrLL_inj (hwfco c1 h1) (hwfco c2 h2) he
  -- assemble
  unfold get_strats
  simp only [phase1_singles pool names]
  rw [hscan]
  have hnames_ne : names ≠ [] := by
    intro he
    subst he
    simp at hk
  have hempty : (names.map (provsOf pool)).isEmpty = false := by
    cases names
    · exact absurd rfl hnames_ne
    · rfl
  have hlen : 1 < (names.map RItem.name).length := by
    simp only [List.length_map]
    omega
  simp only [List.nil_append, hempty, Bool.false_eq_true, if_false, hlen,
    if_true]
  rw [dedup_noop _ hknodup]
  obtain ⟨ns, hns, hkeys⟩ := processCombos_nolinked pool vp'
    (pyProduct (names.map (provsOf pool))) []
    (fun c hc => ⟨buildJsonDct_ok pool c [] (hcoord c hc),
      comboValue_ok pool c (hcoord c hc)⟩)
    hknodup (by simp)
  refine ⟨ns, hns, by simpa using hkeys, ?_⟩
  have : ns.length = (ns.map Prod.fst).length := by simp
  rw [this, hkeys]
  simp only [List.map_nil, List.nil_append, List.length_map]
  rw [pyProduct_length]
  simp [List.map_map, Function.comp_def]

theorem processSingleList_records (pool : GPool) {b : String}
    {sl : List (String × GJson)} (hcoh : Coherent pool)
    (hsl : dictGet pool b = some sl) :
    ∀ (sub : List (String × GJson)) (acc : GStrats),
    (∀ kj ∈ sub, kj ∈ sl) → (sub.map Prod.fst).Nodup →
    (∀ kj ∈ sub, kj.1 ∉ acc.map Prod.fst) →
    ∃ ns, processSingleList pool (sub.map (fun kj => kj.2.CpacProvenance)) acc
      = Except.ok ns ∧ ns.map Prod.fst = acc.map Prod.fst ++ sub.map Prod.fst
  | [], acc, _, _, _ => ⟨acc, rfl, by simp⟩
  | kj :: rest, acc, hmem, hnd, hfresh => by
    have hrs := hcoh.2
    obtain ⟨hknd, hrec⟩ := hrs (b, sl) (dictGet_mem _ _ _ hsl)
    obtain ⟨hg, hwf, hvar⟩ := hrec kj (hmem kj (by simp))
    have hget : dictGet sl kj.1 = some kj.2 :=
      dictGet_of_mem_nodup sl kj (hmem kj (by simp)) hknd
    simp only [List.map_cons, List.nodup_cons] at hnd
    have hfr : kj.1 ∉ acc.map Prod.fst := hfresh kj (by simp)
    have hfresh2 : ∀ kj2 ∈ rest,
        kj2.1 ∉ (dictSet acc kj.1 [(b, kj.1)]).map Prod.fst := by
      intro kj2 h2
      rw [dictSet_map_fst_notMem acc _ _ hfr]
      simp only [List.mem_append, List.mem_singleton]
      rintro (hs | hs)
      · exact hfresh kj2 (by simp [h2]) hs
      · exact hnd.1 (hs ▸ List.mem_map_of_mem Prod.fst h2)
    obtain ⟨ns, hns, hkeys⟩ := processSingleList_records pool hcoh hsl rest
      (dictSet acc kj.1 [(b, kj.1)])
      (fun kj2 h2 => hmem kj2 (by simp [h2])) hnd.2 hfresh2
    refine ⟨ns, ?_, ?_⟩
    · simp [processSingleList, hg, hsl, hget, hns]
    · rw [hkeys, dictSet_map_fst_notMem acc _ _ hfr]
      simp

/-! ## Claim C8 -/
/-- **C8**: with two declared inputs of which one is absent from the pool
(tolerable, since the scan fetches every input with `optional=True`) and
the other present, `get_strats` succeeds with exactly one sub-pool per
lineage of the present input, keyed by that input's lineage keys only —
the absent input contributes no dimension and the active input count
drops to one. -/
theorem get_strats_optional_absent (pool : GPool) (a b : String)
    (hcoh : Coherent pool)
    (habs : dictGet pool a = none)
    (hb : rp_truthy pool b = true) :
    ∃ ns, get_strats pool [RSpec.single a, RSpec.single b] = Except.ok ns ∧
      ns.map Prod.fst = ((dictGet pool b).getD []).map Prod.fst := by
  have hb2 : ∃ sl, dictGet pool b = some sl ∧ sl ≠ [] ∧
      (∀ kj ∈ sl, gVariantOk kj.2 = true) := by
    unfold rp_truthy at hb
    cases hsl : dictGet pool b with
    | none => rw [hsl] at hb; simp at hb
    | some sl =>
      rw [hsl] at hb
      refine ⟨sl, rfl, ?_, ?_⟩
      · intro he
        subst he
        simp at hb
      · intro kj hkj
        obtain ⟨-, hrs⟩ := hcoh
        obtain ⟨-, hrec⟩ := hrs (b, sl) (dictGet_mem _ _ _ hsl)
        exact (hrec kj hkj).2.2
  obtain ⟨sl, hsl, hne, hvar⟩ := hb2
  obtain ⟨vp1, hvp1⟩ := scanStrats_ok b sl [] [] hvar
  have hempty : sl.isEmpty = false := by
    cases sl
    · exact absurd rfl hne
    · rfl
  have hscan : scanAll pool [RItem.name a, RItem.name b]
      { len_inputs := 2, total_pool := [], variant_pool := [] }
      = Except.ok { len_inputs := 1,
                    total_pool := [sl.map (fun kj => kj.2.CpacProvenance)],
                    variant_pool := vp1 } := by
    simp [scanAll, scanOne, fetchItem, habs, hsl, hempty, hvp1]
  have hknd : (sl.map Prod.fst).Nodup :=
    (hcoh.2 (b, sl) (dictGet_mem _ _ _ hsl)).1
  obtain ⟨ns, hns, hkeys⟩ := processSingleList_records pool hcoh hsl sl []
    (fun kj h => h) hknd (by simp)
  refine ⟨ns, ?_, ?_⟩
  · unfold get_strats
    have hp1 : phase1 pool [RSpec.single a, RSpec.single b]
        = ([], [RItem.name a, RItem.name b]) := rfl
    rw [hp1]
    simp only [List.length_cons, List.length_nil]
    rw [hscan]
    simp [processSingles, hns]
  · rw [hkeys, hsl]
    simp

theorem get_strats_cross_product_witness :
    (get_strats demoGPool (["alpha", "beta"].map RSpec.single)).map
        List.length
      = Except.ok ((["alpha", "beta"].map
          (fun n => (provsOf demoGPool n).length)).prod) := by
  obtain ⟨ns, hns, -, hlen⟩ := get_strats_cross_product demoGPool
    ["alpha", "beta"] (by decide) (by decide) (by decide)
  rw [hns]
  simp [Except.map, hlen]

theorem get_strats_optional_absent_witness :
    (get_strats demoGPool [RSpec.single "gamma", RSpec.single "beta"]).map
        (fun ns => ns.map Prod.fst)
      = Except.ok (((dictGet demoGPool "beta").getD []).map Prod.fst) := by
  obtain ⟨ns, hns, hkeys⟩ := get_strats_optional_absent demoGPool
    "gamma" "beta" (by decide) (by decide) (by decide)
  rw [hns]
  simp [Except.map, hkeys]

/-! ## Lemmas for the conflict-pruning claim -/
theorem headsOf_iff : ∀ {vm : List (String × List String)} {hs : List String},
    headsOf vm = Except.ok hs →
    ∀ z, (z ∈ hs ↔ ∃ kv ∈ vm, kv.2.head? = some z)
  | [], hs, h, z => by
    simp only [headsOf, Except.ok.injEq] at h
    subst h
    simp
  | kv :: rest, hs, h, z => by
    simp only [headsOf] at h
    cases hv : kv.2 with
    | nil => rw [hv] at h; simp at h
    | cons a t =>
      rw [hv] at h
      cases hr : headsOf rest with
      | error e => rw [hr] at h; simp at h
      | ok hs2 =>
        rw [hr] at h
        simp only [Except.ok.injEq] at h
        subst h
        simp only [List.mem_cons]
        constructor
        · rintro (rfl | hz)
          · exact ⟨kv, by simp, by simp [hv]⟩
          · obtain ⟨kv2, hkv2, hh⟩ := (headsOf_iff hr z).mp hz
            exact ⟨kv2, by simp [hkv2], hh⟩
        · rintro ⟨kv2, hkv2, hh⟩
          rcases hkv2 with rfl | hkv2
          · left
            rw [hv] at hh
            simp only [List.head?_cons, Option.some.injEq] at hh
            exact hh.symm
          · right
            exact (headsOf_iff hr z).mpr ⟨kv2, hkv2, hh⟩

theorem augmentStrat_superset :
    ∀ (strat spread : List String) (z : String),
    z ∈ strat → z ∈ augmentStrat strat spread
  | strat, [], z, hz => hz
  | strat, l :: rest, z, hz => by
    unfold augmentStrat
    by_cases h1 : hasNOsub l = true
    · simp only [h1, if_true]
      exact augmentStrat_superset strat rest z hz
    · simp only [h1, Bool.false_eq_true, if_false]
      by_cases h2 : l ∈ strat
      · simp only [h2, if_true]
        exact augmentStrat_superset strat rest z hz
      · simp only [h2, if_false]
        exact augmentStrat_superset _ rest z (by simp [hz])

theorem augmentStrat_mem :
    ∀ (strat spread : List String) (z : String),
    z ∈ augmentStrat strat spread → z ∈ strat ∨ ∃ L, z = "NO-" ++ L
  | strat, [], z, hz => Or.inl hz
  | strat, l :: rest, z, hz => by
    unfold augmentStrat at hz
    by_cases h1 : hasNOsub l = true
    · rw [if_pos h1] at hz
      exact augmentStrat_mem strat rest z hz
    · rw [if_neg (by simpa using h1)] at hz
      by_cases h2 : l ∈ strat
      · rw [if_pos h2] at hz
        exact augmentStrat_mem strat rest z hz
      · rw [if_neg h2] at hz
        rcases augmentStrat_mem _ rest z hz with h | h
        · rcases List.mem_append.mp h with h | h
          · exact Or.inl h
          · simp only [List.mem_singleton] at h
            exact Or.inr ⟨l, h⟩
        · exact Or.inr h

theorem no_prefix_take (L : String) :
    ("NO-" ++ L).data.take 3 = ['N', 'O', '-'] := by
  have h : ("NO-" ++ L).data = 'N' :: 'O' :: '-' :: L.data := by
    rw [String.data_append]
    rfl
  rw [h]
  rfl

theorem pairEval_drop {vp : List (String × List String)} {x y T : String}
    {jx jy : GJson} {b : Bool}
    (hTx : ∃ kv ∈ jx.CpacVariant.getD [], kv.2.head? = some T)
    (hTy : ∀ kv ∈ jy.CpacVariant.getD [], kv.2.head? ≠ some T)
    (hTxv : T ∈ (dictGet vp x).getD [])
    (hTyv : T ∈ (dictGet vp y).getD [])
    (hTno : T.data.take 3 ≠ ['N', 'O', '-'])
    (h : pairEval vp x y jx jy = Except.ok b) : b = true := by
  unfold pairEval at h
  cases hhx : headsOf (jx.CpacVariant.getD []) with
  | error e => rw [hhx] at h; simp at h
  | ok xheads =>
    rw [hhx] at h
    cases hgx : dictGet vp x with
    | none => rw [hgx] at h; simp at h
    | some xsp =>
      rw [hgx] at h
      cases hhy : headsOf (jy.CpacVariant.getD []) with
      | error e => rw [hhy] at h; simp at h
      | ok yheads =>
        rw [hhy] at h
        cases hgy : dictGet vp y with
        | none => rw [hgy] at h; simp at h
        | some ysp =>
          rw [hgy] at h
          simp only [Except.ok.injEq] at h
          subst h
          apply List.any_eq_true.mpr
          have hTcs : T ∈ augmentStrat xheads xsp.dedup :=
            augmentStrat_superset _ _ T ((headsOf_iff hhx T).mpr hTx)
          have hTos : T ∉ augmentStrat yheads ysp.dedup := by
            intro hc
            rcases augmentStrat_mem _ _ T hc with hc | ⟨L, hc⟩
            · obtain ⟨kv, hkv, hh⟩ := (headsOf_iff hhy T).mp hc
              exact hTy kv hkv hh
            · exact hTno (by rw [hc]; exact no_prefix_take L)
          have hTosp : T ∈ ysp.dedup := by
            rw [List.mem_dedup]
            simpa [hgy] using hTyv
          have hTcsp : T ∈ xsp.dedup := by
            rw [List.mem_dedup]
            simpa [hgx] using hTxv
          exact ⟨T, hTcsp, by simp [hTcs, hTos, hTosp]⟩

theorem yLoop_false {vp : List (String × List String)}
    {jd : List (String × GJson)} {x : String} {xj : GJson} :
    ∀ {ys : List String}, yLoop vp jd x xj ys = Except.ok false →
    ∀ y ∈ ys, x ≠ y →
    ∃ yj, dictGet jd y = some yj ∧ pairEval vp x y xj yj = Except.ok false
  | [], _, y, hy, _ => by simp at hy
  | y0 :: rest, h, y, hy, hxy => by
    unfold yLoop at h
    by_cases hx0 : x = y0
    · rw [if_pos hx0] at h
      rcases List.mem_cons.mp hy with rfl | hy
      · exact absurd hx0 hxy
      · exact yLoop_false h y hy hxy
    · rw [if_neg hx0] at h
      cases hgy : dictGet jd y0 with
      | none => rw [hgy] at h; simp at h
      | some yj0 =>
        simp only [hgy] at h
        cases hpe : pairEval vp x y0 xj yj0 with
        | error e => simp only [hpe] at h; simp at h
        | ok d =>
          simp only [hpe] at h
          cases d with
          | true => simp at h
          | false =>
            simp only [Bool.false_eq_true, if_false] at h
            rcases List.mem_cons.mp hy with rfl | hy
            · exact ⟨yj0, hgy, hpe⟩
            · exact yLoop_false h y hy hxy

theorem xLoop_false {vp : List (String × List String)}
    {jd : List (String × GJson)} {linked : List String} :
    ∀ {xs : List String}, xLoop vp jd linked xs = Except.ok false →
    ∀ x ∈ xs, ∃ xj, dictGet jd x = some xj ∧
      yLoop vp jd x xj linked = Except.ok false
  | [], _, x, hx => by simp at hx
  | x0 :: rest, h, x, hx => by
    unfold xLoop at h
    cases hgx : dictGet jd x0 with
    | none => rw [hgx] at h; simp at h
    | some xj0 =>
      simp only [hgx] at h
      cases hyl : yLoop vp jd x0 xj0 linked with
      | error e => simp only [hyl] at h; simp at h
      | ok d =>
        simp only [hyl] at h
        cases d with
        | true => simp at h
        | false =>
          simp only [Bool.false_eq_true, if_false] at h
          rcases List.mem_cons.mp hx with rfl | hx
          · exact ⟨xj0, hgx, hyl⟩
          · exact xLoop_false h x hx

theorem groupLoop_false {vp : List (String × List String)}
    {jd : List (String × GJson)} :
    ∀ {gs : List (List String)}, groupLoop vp jd gs = Except.ok false →
    ∀ g ∈ gs, xLoop vp jd g g = Except.ok false
  | [], _, g, hg => by simp at hg
  | g0 :: rest, h, g, hg => by
    unfold groupLoop at h
    cases hxl : xLoop vp jd g0 g0 with
    | error e => simp only [hxl] at h; simp at h
    | ok d =>
      simp only [hxl] at h
      cases d with
      | true => simp at h
      | false =>
        simp only [Bool.false_eq_true, if_false] at h
        rcases List.mem_cons.mp hg with rfl | hg
        · exact hxl
        · exact groupLoop_false h g hg

theorem buildJsonDct_lookup {pool : GPool} :
    ∀ {combo : List (List PEntry)} {acc jd : List (String × GJson)},
    buildJsonDct pool combo acc = Except.ok jd →
    ∀ r j, dictGet jd r = some j →
      dictGet acc r = some j ∨
      ∃ sl k, dictGet pool r = some sl ∧ dictGet sl k = some j
  | [], acc, jd, h, r, j, hr => by
    simp only [buildJsonDct, Except.ok.injEq] at h
    subst h
    exact Or.inl hr
  | strat :: rest, acc, jd, h, r, j, hr => by
    simp only [buildJsonDct] at h
    cases hg : generate_prov_string strat with
    | none => simp only [hg] at h; simp at h
    | some rk =>
      simp only [hg] at h
      cases hp : dictGet pool rk.1 with
      | none => simp only [hp] at h; simp at h
      | some strats =>
        simp only [hp] at h
        cases hs : dictGet strats rk.2 with
        | none => simp only [hs] at h; simp at h
        | some j0 =>
          simp only [hs] at h
          rcases buildJsonDct_lookup h r j hr with hacc | hpool
          · by_cases hrk : rk.1 = r
            · subst hrk
              rw [dictGet_dictSet_self] at hacc
              injection hacc with hacc
              subst hacc
              exact Or.inr ⟨strats, rk.2, hp, hs⟩
            · rw [dictGet_dictSet_ne _ _ _ _ hrk] at hacc
              exact Or.inl hacc
          · exact Or.inr hpool

theorem addVariants_sub :
    ∀ {vm : List (String × List String)} {vp nv : List String},
    addVariants vm vp = Except.ok nv → ∀ z ∈ vp, z ∈ nv
  | [], vp, nv, h, z, hz => by
    simp only [addVariants, Except.ok.injEq] at h
    subst h
    exact hz
  | kv :: rest, vp, nv, h, z, hz => by
    simp only [addVariants] at h
    cases hv : kv.2 with
    | nil => simp only [hv] at h; simp at h
    | cons a t =>
      simp only [hv] at h
      refine addVariants_sub h z ?_
      simp only [List.mem_append]
      exact Or.inl (Or.inl hz)

theorem addVariants_adds :
    ∀ {vm : List (String × List String)} {vp nv : List String},
    addVariants vm vp = Except.ok nv →
    ∀ kv ∈ vm, ∀ z ∈ kv.2, z ∈ nv
  | [], vp, nv, h, kv, hkv, z, hz => by simp at hkv
  | kv0 :: rest, vp, nv, h, kv, hkv, z, hz => by
    simp only [addVariants] at h
    rcases List.mem_cons.mp hkv with rfl | hkv2
    · cases hv : kv.2 with
      | nil => simp only [hv] at h; simp at h
      | cons a t =>
        simp only [hv] at h
        rw [hv] at hz
        refine addVariants_sub h z ?_
        simp only [List.mem_append]
        exact Or.inl (Or.inr hz)
    · cases hv : kv0.2 with
      | nil => simp only [hv] at h; simp at h
      | cons a t =>
        simp only [hv] at h
        exact addVariants_adds h kv hkv2 z hz

theorem ensure_entry_mono {vp : List (String × List String)} {fetched : String} :
    ∀ r z, z ∈ (dictGet vp r).getD [] →
    z ∈ (dictGet (if dictMem vp fetched then vp
                  else dictSet vp fetched []) r).getD [] := by
  intro r z hz
  by_cases hm : dictMem vp fetched = true
  · rw [if_pos hm]
    exact hz
  · rw [if_neg hm]
    by_cases hr : fetched = r
    · subst hr
      have hnone : dictGet vp fetched = none := by
        cases hg : dictGet vp fetched with
        | none => rfl
        | some l =>
          exact absurd ((dictMem_iff_dictGet vp fetched).mpr (by simp [hg])) hm
      rw [hnone] at hz
      simp at hz
    · rw [dictGet_dictSet_ne _ _ _ _ hr]
      exact hz

theorem scanStrats_vp_mono {fetched : String} :
    ∀ {sl : List (String × GJson)} {sp : List (List PEntry)}
      {vp : List (String × List String)}
      {res : List (List PEntry) × List (String × List String)},
    scanStrats fetched sl sp vp = Except.ok res →
    ∀ r z, z ∈ (dictGet vp r).getD [] → z ∈ (dictGet res.2 r).getD []
  | [], sp, vp, res, h, r, z, hz => by
    simp only [scanStrats, Except.ok.injEq] at h
    subst h
    exact hz
  | kj :: rest, sp, vp, res, h, r, z, hz => by
    simp only [scanStrats] at h
    cases hcv : kj.2.CpacVariant with
    | none =>
      simp only [hcv] at h
      exact scanStrats_vp_mono h r z (ensure_entry_mono r z hz)
    | some vm =>
      simp only [hcv] at h
      cases hav : addVariants vm
          ((dictGet (if dictMem vp fetched then vp
                     else dictSet vp fetched []) fetched).getD []) with
      | error e => simp only [hav] at h; simp at h
      | ok nv =>
        simp only [hav] at h
        apply scanStrats_vp_mono h r z
        by_cases hr : fetched = r
        · subst hr
          rw [dictGet_dictSet_self]
          simp only [Option.getD_some]
          exact addVariants_sub hav z (ensure_entry_mono fetched z hz)
        · rw [dictGet_dictSet_ne _ _ _ _ hr]
          exact ensure_entry_mono r z hz

theorem scanStrats_vp_adds {fetched : String} :
    ∀ {sl : List (String × GJson)} {sp : List (List PEntry)}
      {vp : List (String × List String)}
      {res : List (List PEntry) × List (String × List String)},
    scanStrats fetched sl sp vp = Except.ok res →
    ∀ kj ∈ sl, ∀ vm, kj.2.CpacVariant = some vm →
    ∀ kv ∈ vm, ∀ z ∈ kv.2, z ∈ (dictGet res.2 fetched).getD []
  | [], sp, vp, res, h, kj, hkj, vm, hvm, kv, hkv, z, hz => by simp at hkj
  | kj0 :: rest, sp, vp, res, h, kj, hkj, vm, hvm, kv, hkv, z, hz => by
    simp only [scanStrats] at h
    rcases List.mem_cons.mp hkj with rfl | hkj2
    · simp only [hvm] at h
      cases hav : addVariants vm
          ((dictGet (if dictMem vp fetched then vp
                     else dictSet vp fetched []) fetched).getD []) with
      | error e => simp only [hav] at h; simp at h
      | ok nv =>
        simp only [hav] at h
        apply scanStrats_vp_mono h fetched z
        rw [dictGet_dictSet_self]
        simp only [Option.getD_some]
        exact addVariants_adds hav kv hkv z hz
    · cases hcv : kj0.2.CpacVariant with
      | none =>
        simp only [hcv] at h
        exact scanStrats_vp_adds h kj hkj2 vm hvm kv hkv z hz
      | some vm0 =>
        simp only [hcv] at h
        cases hav : addVariants vm0
            ((dictGet (if dictMem vp fetched then vp
                       else dictSet vp fetched []) fetched).getD []) with
        | error e => simp only [hav] at h; simp at h
        | ok nv =>
          simp only [hav] at h
          exact scanStrats_vp_adds h kj hkj2 vm hvm kv hkv z hz

theorem scanOne_vp_mono {pool : GPool} {st st1 : ScanSt} {item : RItem}
    (h : scanOne pool st item = Except.ok st1) :
    ∀ r z, z ∈ (dictGet st.variant_pool r).getD [] →
      z ∈ (dictGet st1.variant_pool r).getD [] := by
  intro r z hz
  unfold scanOne at h
  cases hf : fetchItem pool item with
  | none =>
    simp only [hf, Except.ok.injEq] at h
    subst h
    exact hz
  | some df =>
    simp only [hf] at h
    by_cases he : df.1.isEmpty = true
    · rw [if_pos he] at h
      simp only [Except.ok.injEq] at h
      subst h
      exact hz
    · rw [if_neg he] at h
      cases hss : scanStrats df.2 df.1 [] st.variant_pool with
      | error e => simp only [hss] at h; simp at h
      | ok spvp =>
        simp only [hss, Except.ok.injEq] at h
        subst h
        exact scanStrats_vp_mono hss r z hz

theorem scanAll_vp_mono {pool : GPool} :
    ∀ {items : List RItem} {st st2 : ScanSt},
    scanAll pool items st = Except.ok st2 →
    ∀ r z, z ∈ (dictGet st.variant_pool r).getD [] →
      z ∈ (dictGet st2.variant_pool r).getD []
  | [], st, st2, h, r, z, hz => by
    simp only [scanAll, Except.ok.injEq] at h
    subst h
    exact hz
  | item :: rest, st, st2, h, r, z, hz => by
    simp only [scanAll] at h
    cases h1 : scanOne pool st item with
    | error e => simp only [h1] at h; simp at h
    | ok st1 =>
      simp only [h1] at h
      exact scanAll_vp_mono h r z (scanOne_vp_mono h1 r z hz)

theorem scanAll_vp_adds {pool : GPool} :
    ∀ {items : List RItem} {st st2 : ScanSt},
    scanAll pool items st = Except.ok st2 →
    ∀ x sl, RItem.name x ∈ items → dictGet pool x = some sl →
    sl.isEmpty = false →
    ∀ kj ∈ sl, ∀ vm, kj.2.CpacVariant = some vm →
    ∀ kv ∈ vm, ∀ z ∈ kv.2, z ∈ (dictGet st2.variant_pool x).getD []
  | [], st, st2, h, x, sl, hitem, hsl, hne, kj, hkj, vm, hvm, kv, hkv, z, hz => by
    simp at hitem
  | item0 :: rest, st, st2, h, x, sl, hitem, hsl, hne, kj, hkj, vm, hvm,
      kv, hkv, z, hz => by
    simp only [scanAll] at h
    cases h1 : scanOne pool st item0 with
    | error e => simp only [h1] at h; simp at h
    | ok st1 =>
      simp only [h1] at h
      rcases List.mem_cons.mp hitem with heq | hitem2
      · subst heq
        unfold scanOne at h1
        have hfi : fetchItem pool (RItem.name x) = some (sl, x) := by
          simp only [fetchItem, hsl]
        simp only [hfi] at h1
        rw [if_neg (by simp [hne])] at h1
        cases hss : scanStrats x sl [] st.variant_pool with
        | error e => simp only [hss] at h1; simp at h1
        | ok spvp =>
          simp only [hss, Except.ok.injEq] at h1
          subst h1
          exact scanAll_vp_mono h x z
            (scanStrats_vp_adds hss kj hkj vm hvm kv hkv z hz)
      · exact scanAll_vp_adds h x sl hitem2 hsl hne kj hkj vm hvm kv hkv z hz

theorem scanOne_len {pool : GPool} {st st1 : ScanSt} {item : RItem}
    (h : scanOne pool st item = Except.ok st1) :
    st1.len_inputs = if presentItem pool item then st.len_inputs
                     else st.len_inputs - 1 := by
  unfold scanOne at h
  unfold presentItem
  cases hf : fetchItem pool item with
  | none =>
    simp only [hf, Except.ok.injEq] at h
    subst h
    simp
  | some df =>
    simp only [hf] at h ⊢
    by_cases he : df.1.isEmpty = true
    · rw [if_pos he] at h
      simp only [Except.ok.injEq] at h
      subst h
      simp [he]
    · rw [if_neg he] at h
      cases hss : scanStrats df.2 df.1 [] st.variant_pool with
      | error e => simp only [hss] at h; simp at h
      | ok spvp =>
        simp only [hss, Except.ok.injEq] at h
        subst h
        simp only [Bool.not_eq_true] at he
        simp [he]

theorem scanAll_len_ge {pool : GPool} :
    ∀ {items : List RItem} {st st2 : ScanSt},
    scanAll pool items st = Except.ok st2 →
    st.len_inputs - items.countP (fun i => !presentItem pool i) ≤
      st2.len_inputs
  | [], st, st2, h => by
    simp only [scanAll, Except.ok.injEq] at h
    subst h
    simp
  | item :: rest, st, st2, h => by
    simp only [scanAll] at h
    cases h1 : scanOne pool st item with
    | error e => simp only [h1] at h; simp at h
    | ok st1 =>
      simp only [h1] at h
      have hrec := scanAll_len_ge h
      have hlen := scanOne_len h1
      by_cases hp : presentItem pool item = true
      · rw [if_pos hp] at hlen
        simp only [List.countP_cons, hp, Bool.not_true, Bool.false_eq_true,
          if_false, add_zero]
        omega
      · rw [if_neg hp] at hlen
        have hp2 : presentItem pool item = false := by
          cases hpv : presentItem pool item
          · rfl
          · exact absurd hpv hp
        simp only [List.countP_cons, hp2, Bool.not_false, if_true]
        omega

theorem two_le_countP {α : Type} {p : α → Bool} :
    ∀ {l : List α} {a b : α}, a ∈ l → b ∈ l → a ≠ b →
    p a = true → p b = true → 2 ≤ l.countP p
  | [], a, b, ha, _, _, _, _ => by simp at ha
  | c :: rest, a, b, ha, hb, hab, hpa, hpb => by
    rcases List.mem_cons.mp ha with rfl | ha2
    · have hb2 : b ∈ rest := by
        rcases List.mem_cons.mp hb with rfl | hbr
        · exact absurd rfl hab
        · exact hbr
      have h1 : 0 < rest.countP p := List.countP_pos_iff.mpr ⟨b, hb2, hpb⟩
      simp only [List.countP_cons, hpa, if_true]
      omega
    · rcases List.mem_cons.mp hb with rfl | hb2
      · have h1 : 0 < rest.countP p := List.countP_pos_iff.mpr ⟨a, ha2, hpa⟩
        simp only [List.countP_cons, hpb, if_true]
        omega
      · have h2 := two_le_countP ha2 hb2 hab hpa hpb
        simp only [List.countP_cons]
        omega

theorem truthy_present {pool : GPool} {x : String}
    {sl : List (String × GJson)}
    (hsl : dictGet pool x = some sl) (hne : sl.isEmpty = false) :
    presentItem pool (RItem.name x) = true := by
  unfold presentItem
  simp only [fetchItem, hsl]
  simp [hne]

theorem phase1_linked_truthy {pool : GPool} :
    ∀ {resources : List RSpec} {g : List String},
    g ∈ (phase1 pool resources).1 → ∀ l ∈ g,
    rp_truthy pool l = true ∧ RItem.name l ∈ (phase1 pool resources).2
  | [], g, hg, l, hl => by simp [phase1] at hg
  | RSpec.single s :: rest, g, hg, l, hl => by
    simp only [phase1] at hg ⊢
    have hrec := phase1_linked_truthy hg l hl
    exact ⟨hrec.1, List.mem_cons.mpr (Or.inr hrec.2)⟩
  | RSpec.alts ls :: rest, g, hg, l, hl => by
    simp only [phase1] at hg ⊢
    have hrec := phase1_linked_truthy hg l hl
    exact ⟨hrec.1, List.mem_cons.mpr (Or.inr hrec.2)⟩
  | RSpec.linked ls :: rest, g, hg, l, hl => by
    simp only [phase1] at hg ⊢
    by_cases hlen : (ls.filter (rp_truthy pool)).length < 2
    · rw [if_pos hlen] at hg
      have hrec := phase1_linked_truthy hg l hl
      exact ⟨hrec.1, List.mem_append.mpr (Or.inr hrec.2)⟩
    · rw [if_neg hlen] at hg
      rcases List.mem_cons.mp hg with rfl | hg2
      · have hl2 := List.mem_filter.mp hl
        refine ⟨hl2.2, ?_⟩
        exact List.mem_append.mpr (Or.inl (List.mem_map.mpr ⟨l, hl, rfl⟩))
      · have hrec := phase1_linked_truthy hg2 l hl
        exact ⟨hrec.1, List.mem_append.mpr (Or.inr hrec.2)⟩

theorem dedupByStrAux_nodup :
    ∀ (ls : List (List (List PEntry))) (seen : List String),
    ((dedupByStrAux ls seen).map pyStrLL).Nodup ∧
    ∀ c ∈ dedupByStrAux ls seen, pyStrLL c ∉ seen
  | [], seen => by simp [dedupByStrAux]
  | c :: rest, seen => by
    simp only [dedupByStrAux]
    by_cases hc : pyStrLL c ∈ seen
    · rw [if_pos hc]
      exact dedupByStrAux_nodup rest seen
    · rw [if_neg hc]
      obtain ⟨hnd, hdisj⟩ := dedupByStrAux_nodup rest (seen ++ [pyStrLL c])
      refine ⟨?_, ?_⟩
      · simp only [List.map_cons, List.nodup_cons]
        refine ⟨?_, hnd⟩
        intro hmem
        obtain ⟨c2, hc2, heq⟩ := List.mem_map.mp hmem
        exact (hdisj c2 hc2)
          (by rw [heq]; exact List.mem_append.mpr (Or.inr (by simp)))
      · intro c2 hc2
        rcases List.mem_cons.mp hc2 with rfl | hc2
        · exact hc
        · exact fun hmem =>
            hdisj c2 hc2 (List.mem_append.mpr (Or.inl hmem))

theorem dedupByStr_nodup (ls : List (List (List PEntry))) :
    ((dedupByStr ls).map pyStrLL).Nodup :=
  (dedupByStrAux_nodup ls []).1

theorem processCombos_skip {pool : GPool} {linked : List (List String)}
    {vp : List (String × List String)} {key : String} :
    ∀ {combos : List (List (List PEntry))} {acc ns : GStrats},
    processCombos pool linked vp combos acc = Except.ok ns →
    (∀ c ∈ combos, pyStrLL c = key →
      ∀ jd, buildJsonDct pool c [] = Except.ok jd →
      ∀ d, groupLoop vp jd linked = Except.ok d → d = true) →
    key ∉ acc.map Prod.fst → key ∉ ns.map Prod.fst
  | [], acc, ns, h, hskip, hacc => by
    simp only [processCombos, Except.ok.injEq] at h
    subst h
    exact hacc
  | combo :: rest, acc, ns, h, hskip, hacc => by
    simp only [processCombos] at h
    cases hjd : buildJsonDct pool combo [] with
    | error e => simp only [hjd] at h; simp at h
    | ok jd =>
      simp only [hjd] at h
      cases hgl : groupLoop vp jd linked with
      | error e => simp only [hgl] at h; simp at h
      | ok drop =>
        simp only [hgl] at h
        cases drop with
        | true =>
          rw [if_pos rfl] at h
          exact processCombos_skip h
            (fun c hc => hskip c (List.mem_cons.mpr (Or.inr hc))) hacc
        | false =>
          rw [if_neg (by simp)] at h
          cases hcv : comboValue pool combo with
          | error e => simp only [hcv] at h; simp at h
          | ok v =>
            simp only [hcv] at h
            by_cases hkey : pyStrLL combo = key
            · exact absurd
                (hskip combo (List.mem_cons.mpr (Or.inl rfl)) hkey jd hjd
                  false hgl) (by simp)
            · refine processCombos_skip h
                (fun c hc => hskip c (List.mem_cons.mpr (Or.inr hc))) ?_
              intro hmem
              by_cases hm : pyStrLL combo ∈ acc.map Prod.fst
              · rw [dictSet_map_fst_mem _ _ _ hm] at hmem
                exact hacc hmem
              · rw [dictSet_map_fst_notMem _ _ _ hm] at hmem
                rcases List.mem_append.mp hmem with hmem | hmem
                · exact hacc hmem
                · simp only [List.mem_singleton] at hmem
                  exact hkey hmem.symm

theorem present_count_split (pool : GPool) (l : List RItem) :
    l.length = l.countP (fun i => presentItem pool i) +
      l.countP (fun i => !presentItem pool i) := by
  induction l with
  | nil => simp
  | cons a rest ih =>
    simp only [List.countP_cons, List.length_cons]
    by_cases hp : presentItem pool a = true
    · simp only [hp, Bool.not_true, Bool.false_eq_true, if_false, if_true,
        add_zero]
      omega
    · have hp2 : presentItem pool a = false := by
        cases hpv : presentItem pool a
        · rfl
        · exact absurd hpv hp
      simp only [hp2, Bool.not_false, Bool.false_eq_true, if_false, if_true,
        add_zero]
      omega

/-- C1: for every linked input group and every candidate combination the
cross-product branch of `get_strats` examines, if the chosen lineage of
member `x` carries fork tag `T` (as the head of one of its `CpacVariant`
lists) while the chosen lineage of another member `y` of the same group
does not carry `T` even though `T` sits in `y`'s variant registry (and
`T` is a genuine tag, not a `NO-` marker), then that combination is
dropped: its merged key names no sub-pool of the result
(engine.py:495-567, clause at lines 539-550). -/
theorem get_strats_conflict_pruning
    (pool : GPool) (resources : List RSpec) (sst : ScanSt) (ns : GStrats)
    (combo : List (List PEntry)) (jd : List (String × GJson))
    (g : List String) (x y T : String) (jx jy : GJson)
    (hscan : scanAll pool (phase1 pool resources).2
      { len_inputs := (phase1 pool resources).2.length,
        total_pool := [], variant_pool := [] } = Except.ok sst)
    (hrun : get_strats pool resources = Except.ok ns)
    (hg : g ∈ (phase1 pool resources).1)
    (hx : x ∈ g) (hy : y ∈ g) (hxy : x ≠ y)
    (hcombo : combo ∈ dedupByStr (pyProduct sst.total_pool))
    (hjd : buildJsonDct pool combo [] = Except.ok jd)
    (hjx : dictGet jd x = some jx) (hjy : dictGet jd y = some jy)
    (hTx : ∃ kv ∈ jx.CpacVariant.getD [], kv.2.head? = some T)
    (hTy : ∀ kv ∈ jy.CpacVariant.getD [], kv.2.head? ≠ some T)
    (hTreg : T ∈ (dictGet sst.variant_pool y).getD [])
    (hTno : T.data.take 3 ≠ ['N', 'O', '-']) :
    pyStrLL combo ∉ ns.map Prod.fst := by
  have hxf := phase1_linked_truthy hg x hx
  have hyf := phase1_linked_truthy hg y hy
  obtain ⟨slx, hslx, hnex⟩ :
      ∃ slx, dictGet pool x = some slx ∧ slx.isEmpty = false := by
    have ht := hxf.1
    unfold rp_truthy at ht
    cases hgx : dictGet pool x with
    | none => rw [hgx] at ht; simp at ht
    | some l =>
      rw [hgx] at ht
      simp at ht
      exact ⟨l, rfl, by simpa using ht⟩
  obtain ⟨sly, hsly, hney⟩ :
      ∃ sly, dictGet pool y = some sly ∧ sly.isEmpty = false := by
    have ht := hyf.1
    unfold rp_truthy at ht
    cases hgy : dictGet pool y with
    | none => rw [hgy] at ht; simp at ht
    | some l =>
      rw [hgy] at ht
      simp at ht
      exact ⟨l, rfl, by simpa using ht⟩
  have hpx := truthy_present hslx hnex
  have hpy := truthy_present hsly hney
  have hcount : 2 ≤ (phase1 pool resources).2.countP
      (fun i => presentItem pool i) := by
    refine @two_le_countP RItem (fun i => presentItem pool i)
      ((phase1 pool resources).2) (RItem.name x) (RItem.name y)
      hxf.2 hyf.2 ?_ hpx hpy
    intro hc
    injection hc with hc2
    exact hxy hc2
  have hlenge : (phase1 pool resources).2.length -
      (phase1 pool resources).2.countP (fun i => !presentItem pool i) ≤
      sst.len_inputs := scanAll_len_ge hscan
  have hsplit := present_count_split pool (phase1 pool resources).2
  have hmulti : 1 < sst.len_inputs := by omega
  cases hvx : jx.CpacVariant with
  | none =>
    rw [hvx] at hTx
    simp at hTx
  | some vmx =>
    rw [hvx] at hTx
    simp only [Option.getD_some] at hTx
    obtain ⟨kv, hkv, hhead⟩ := hTx
    have hTmem : T ∈ kv.2 := by
      cases hkv2 : kv.2 with
      | nil => rw [hkv2] at hhead; simp at hhead
      | cons a t =>
        rw [hkv2] at hhead
        simp only [List.head?_cons, Option.some.injEq] at hhead
        rw [← hhead]
        exact List.mem_cons_self a t
    rcases buildJsonDct_lookup hjd x jx hjx with hacc | ⟨sl2, k2, hsl2, hk2⟩
    · simp [dictGet] at hacc
    · rw [hslx] at hsl2
      injection hsl2 with hsl2
      subst hsl2
      have hrec : (k2, jx) ∈ slx := dictGet_mem _ _ _ hk2
      have hTxv : T ∈ (dictGet sst.variant_pool x).getD [] :=
        scanAll_vp_adds hscan x slx hxf.2 hslx hnex (k2, jx) hrec vmx hvx
          kv hkv T hTmem
      unfold get_strats at hrun
      simp only [hscan] at hrun
      by_cases hemp : sst.total_pool.isEmpty = true
      · rw [if_pos hemp] at hrun
        exact absurd hrun (by simp)
      · rw [if_neg hemp, if_pos hmulti] at hrun
        refine processCombos_skip hrun ?_ (by simp)
        intro c hc hkeyc jd2 hjd2 d hgl2
        have hceq : c = combo :=
          List.inj_on_of_nodup_map (dedupByStr_nodup _) hc hcombo hkeyc
        subst hceq
        rw [hjd] at hjd2
        injection hjd2 with hjd2
        subst hjd2
        by_contra hd
        have hd2 : d = false := by
          cases d
          · rfl
          · exact absurd rfl hd
        subst hd2
        have hxl := groupLoop_false hgl2 g hg
        obtain ⟨xj2, hxj2, hyl⟩ := xLoop_false hxl x hx
        rw [hjx] at hxj2
        injection hxj2 with hxj2
        subst hxj2
        obtain ⟨yj2, hyj2, hpe⟩ := yLoop_false hyl y hy hxy
        rw [hjy] at hyj2
        injection hyj2 with hyj2
        subst hyj2
        have hTx2 : ∃ kv2 ∈ jx.CpacVariant.getD [], kv2.2.head? = some T :=
          ⟨kv, by simp only [hvx, Option.getD_some]; exact hkv, hhead⟩
        exact absurd (pairEval_drop hTx2 hTy hTxv hTreg hTno hpe) (by simp)

theorem get_strats_conflict_pruning_witness :
    pyStrLL demoCombo ∉ demoLinkStrats.map Prod.fst :=
  get_strats_conflict_pruning demoLinkPool demoLinkSpecs demoLinkScan
    demoLinkStrats demoCombo demoJd ["A", "B"] "A" "B" "T"
    { CpacProvenance := [PEntry.str "A:n1"],
      CpacVariant := some [("scan", ["T", "U"])] }
    { CpacProvenance := [PEntry.str "B:m1"],
      CpacVariant := some [("scan", ["U", "T"])] }
    (by decide) (by decide) (by decide) (by decide) (by decide) (by decide)
    (by decide) (by decide) (by decide) (by decide) (by decide) (by decide)
    (by decide) (by decide)

/-- C7: within a connecting invocation (`True in switch`,
engine.py:1250), the stage name is appended to the output's fork-tag
list at its raw (descriptor-stripped) label exactly when the invocation
is a fork — the switch also carries `False` (line 1254) — or more than
one option variant is active in the block, or more than one option is
active across all blocks (line 1362); with a single active variant and
no false branch the fork-tag metadata is left untouched. -/
theorem commit_variant_tag_fork_iff (switch : List Bool)
    (opts all_opts : List String) (label node_name : String)
    (cv : Option (List (String × List String)))
    (_hconn : true ∈ switch) :
    (dictGet ((commit_variant_tag switch opts all_opts label node_name
          cv).getD []) (get_raw_label label) =
        some ((dictGet (cv.getD []) (get_raw_label label)).getD []
          ++ [node_name])) ↔
      (false ∈ switch ∨ 1 < opts.length ∨ 1 < all_opts.length) := by
  unfold commit_variant_tag connect_fork
  by_cases hf : (decide (false ∈ switch) || decide (1 < opts.length)
      || decide (1 < all_opts.length)) = true
  · rw [if_pos hf]
    simp only [Option.getD_some, dictGet_dictSet_self]
    simp only [Bool.or_eq_true, decide_eq_true_eq, or_assoc] at hf
    exact iff_of_true trivial hf
  · rw [if_neg hf]
    simp only [Bool.or_eq_true, decide_eq_true_eq, or_assoc] at hf
    refine iff_of_false ?_ hf
    intro h
    cases hget : dictGet (cv.getD []) (get_raw_label label) with
    | none => rw [hget] at h; simp at h
    | some l =>
      rw [hget] at h
      injection h with h
      have hlen := congrArg List.length h
      simp at hlen

theorem commit_variant_tag_fork_iff_witness :
    true ∈ [true, false] ∧
    ((dictGet ((commit_variant_tag [true, false] ["a"] ["a"] "desc-x_bold"
          "stage" none).getD []) (get_raw_label "desc-x_bold") =
        some ((dictGet ((none : Option (List (String × List String))).getD
          []) (get_raw_label "desc-x_bold")).getD [] ++ ["stage"])) ↔
      (false ∈ [true, false] ∨ 1 < (["a"] : List String).length ∨
        1 < (["a"] : List String).length)) :=
  ⟨by decide, commit_variant_tag_fork_iff [true, false] ["a"] ["a"]
    "desc-x_bold" "stage" none (by decide)⟩

end CpacEngine

